import Mathlib

/-!
Verification development for the job scheduling and pipeline-execution core
of the creative studio repository: `services/workflows/job_queue.py`
(JobQueue, Job, JobStatus) and `services/workflows/executor.py`
(WorkflowExecutor).  The Python code is shallowly embedded: the workflow
dictionary becomes a `Workflow` structure, the executor's stages become pure
functions threaded through an outcome oracle for the external AI/ffmpeg
capabilities, and the asyncio queue/worker becomes a small-step transition
system over an explicit heap of `Job` objects (Python object identity is a
heap index, registry/dicts are insertion-ordered association lists, exactly
like CPython dicts).
-/

namespace CreativeStudio

/-- `JobStatus` enum of job_queue.py. -/
inductive JobStatus
  | queued
  | running
  | completed
  | failed
  | cancelled
deriving DecidableEq

/-- One entry of `workflow['spec']['shots']` as read by executor.py:
scene/camera/light/framing/mood/duration drive the prompts, and the
keyframes/videos stages write `keyframe_uri` / `video_uri` exactly once. -/
structure Shot where
  sceneDescription : String
  cameraMovement : String
  lighting : String
  framing : String
  mood : String
  duration : Nat
  keyframeUri : Option String := none
  videoUri : Option String := none
deriving DecidableEq

/-- `workflow['spec']['style']`: the keys executor.py reads, all optional. -/
structure Style where
  aspect : Option String := none
  visualKeywords : Option (List String) := none
  colorPalette : Option (List String) := none
deriving DecidableEq

/-- `workflow['spec']['audio']['voiceover']`. -/
structure Voiceover where
  script : String
  style : Option String := none
  audioUri : Option String := none
deriving DecidableEq

/-- `workflow['spec']['audio']['music']` (placeholder path only, no call). -/
structure MusicSpec where
  audioUri : Option String := none
deriving DecidableEq

/-- `workflow['spec']['audio']`. -/
structure AudioSpec where
  voiceover : Option Voiceover := none
  music : Option MusicSpec := none
deriving DecidableEq

/-- `workflow['spec']`. -/
structure WorkflowSpec where
  shots : List Shot
  style : Style
  audioSpec : AudioSpec
  transitions : List String := []
deriving DecidableEq

/-- One entry of `workflow['outputs']['formats']`. -/
structure FormatOutput where
  uri : String
  url : String
deriving DecidableEq

/-- `workflow['outputs']`, written by the composition stage. -/
structure Outputs where
  finalVideoUri : String
  finalVideoUrl : String
  formats : List (String × FormatOutput) := []
deriving DecidableEq

/-- The workflow dictionary handed to `WorkflowExecutor.execute_workflow`.
`progress` is the string-keyed progress dict initialised by orchestrator.py
(`planning/keyframes/videos/audio/composition`, all except planning
`"pending"`); `status`, `error`, `outputs`, `completed_at` are the keys
execute_workflow itself writes. -/
structure Workflow where
  workflowId : String
  spec : WorkflowSpec
  status : String
  progress : List (String × String)
  error : Option String := none
  outputs : Option Outputs := none
  completedAt : Option Nat := none
deriving DecidableEq

/-- Insertion-ordered dict lookup (CPython dict semantics; the dicts built
here never hold a key twice). -/
def dictGet {α : Type} : List (String × α) → String → Option α
  | [], _ => none
  | p :: m, k => if p.1 = k then some p.2 else dictGet m k

/-- Insertion-ordered dict assignment: an existing key keeps its position,
a new key is appended (CPython dict semantics). -/
def dictSet {α : Type} : List (String × α) → String → α → List (String × α)
  | [], k, v => [(k, v)]
  | p :: m, k, v => if p.1 = k then (k, v) :: m else p :: dictSet m k v

/-- `del m[k]` on an insertion-ordered dict. -/
def dictDel {α : Type} (m : List (String × α)) (k : String) :
    List (String × α) :=
  m.filter (fun p => p.1 != k)

/-- `k in m` on a dict. -/
def dictHas {α : Type} (m : List (String × α)) (k : String) : Bool :=
  m.any (fun p => p.1 == k)

/-- The progress dict orchestrator.py installs on a fresh workflow. -/
def initialProgress : List (String × String) :=
  [("planning", "complete"), ("keyframes", "pending"), ("videos", "pending"),
   ("audio", "pending"), ("composition", "pending")]

/-- One invocation of an external collaborator capability, with the
arguments executor.py passes. -/
inductive CapCall
  | imagenGenerate (prompt : String) (aspect : String) (model : String)
  | veoGenerate (prompt : String) (imageUri : String) (duration : Nat)
      (model : String)
  | ttsGenerate (text : String) (voiceStyle : String)
  | ffmpegCompose (videoClips : List String) (audioTracks : List String)
      (transitions : List String) (style : Style)
  | ffmpegTranscode (inputVideo : String) (aspect : String)
      (resolution : String)
deriving DecidableEq

/-- Environment-chosen results of the external capability calls: `.error e`
models the Python call raising, `.ok v` returning. Indexed calls (one
keyframe per shot, one video per shot, one transcode per format) take the
loop index. -/
structure ExecOutcomes where
  keyframe : Nat → Except String String
  video : Nat → Except String String
  tts : Except String String
  compose : Except String String
  transcode : Nat → Except String String

def errOf : Except String String → Option String
  | .error e => some e
  | .ok _ => none

/-- `WorkflowExecutor._build_imagen_prompt`. -/
def buildImagenPrompt (shot : Shot) (style : Style) : String :=
  let parts := [shot.sceneDescription,
    "Framing: " ++ shot.framing,
    "Lighting: " ++ shot.lighting,
    "Mood: " ++ shot.mood]
  let parts := match style.visualKeywords with
    | some kws => parts ++ ["Style: " ++ String.intercalate ", " kws]
    | none => parts
  let parts := match style.colorPalette with
    | some cs => parts ++ ["Colors: " ++ String.intercalate ", " cs]
    | none => parts
  String.intercalate ". " parts ++
    ". Cinematic still frame, high quality, professional cinematography."

def gsUri (bucket path : String) : String := "gs://" ++ bucket ++ "/" ++ path

/-- `blob.public_url` for a bucket path. -/
def publicUrl (bucket path : String) : String :=
  "https://storage.googleapis.com/" ++ bucket ++ "/" ++ path

def keyframePath (wid : String) (i : Nat) : String :=
  "workflows/" ++ wid ++ "/keyframes/shot_" ++ toString (i + 1) ++ ".png"

def videoPath (wid : String) (i : Nat) : String :=
  "workflows/" ++ wid ++ "/videos/shot_" ++ toString (i + 1) ++ ".mp4"

/-- The `imagen.generate_image` calls issued by `_generate_keyframes`
(one per shot, all created before the gather). -/
def imagenCalls (style : Style) : List Shot → List CapCall
  | [] => []
  | s :: rest =>
      CapCall.imagenGenerate (buildImagenPrompt s style)
        (style.aspect.getD "16:9") "imagen-004" :: imagenCalls style rest

/-- The upload loop of `_generate_keyframes`: writes `keyframe_uri` on every
shot (runs only when the gather raised no exception). -/
def setKeyframes (bucket wid : String) : Nat → List Shot → List Shot
  | _, [] => []
  | i, s :: rest =>
      { s with keyframeUri := some (gsUri bucket (keyframePath wid i)) }
        :: setKeyframes bucket wid (i + 1) rest

/-- First exception raised among the gathered keyframe tasks, if any
(`asyncio.gather` with default `return_exceptions=False`). -/
def firstKeyframeErr (o : ExecOutcomes) : Nat → Nat → Option String
  | _, 0 => none
  | i, n + 1 =>
      match errOf (o.keyframe i) with
      | some e => some e
      | none => firstKeyframeErr o (i + 1) n

/-- `WorkflowExecutor._generate_keyframes`: all imagen calls are issued; if
any raises, the stage raises and mutates nothing; otherwise every shot gets
its `keyframe_uri` and `progress['keyframes']` becomes `"complete"`. -/
def generateKeyframes (bucket : String) (o : ExecOutcomes) (w : Workflow) :
    Workflow × List CapCall × Option String :=
  let shots := w.spec.shots
  let calls := imagenCalls w.spec.style shots
  match firstKeyframeErr o 0 shots.length with
  | some e => (w, calls, some e)
  | none =>
      let shots' := setKeyframes bucket w.workflowId 0 shots
      ({ w with
          spec := { w.spec with shots := shots' },
          progress := dictSet w.progress "keyframes" "complete" },
        calls, none)

/-- The sequential per-shot loop of `_generate_videos`. A missing
`keyframe_uri` is a KeyError raised while building the call's arguments;
an error outcome stops the loop with shots before the failing one already
mutated (in-place mutation of the shots list). -/
def runVideos (bucket wid : String) (o : ExecOutcomes) :
    Nat → List Shot → List Shot × List CapCall × Option String
  | _, [] => ([], [], none)
  | i, s :: rest =>
      match s.keyframeUri with
      | none => (s :: rest, [], some "KeyError: 'keyframe_uri'")
      | some kUri =>
          let call := CapCall.veoGenerate
            (s.sceneDescription ++ ". " ++ s.cameraMovement ++ ". " ++
              s.lighting ++ ".") kUri s.duration "veo-003"
          match o.video i with
          | .error e => (s :: rest, [call], some e)
          | .ok _ =>
              let s' := { s with videoUri := some (gsUri bucket (videoPath wid i)) }
              let (rest', calls, err) := runVideos bucket wid o (i + 1) rest
              (s' :: rest', call :: calls, err)

/-- `WorkflowExecutor._generate_videos`. -/
def generateVideos (bucket : String) (o : ExecOutcomes) (w : Workflow) :
    Workflow × List CapCall × Option String :=
  let (shots', calls, err) := runVideos bucket w.workflowId o 0 w.spec.shots
  let w' := { w with spec := { w.spec with shots := shots' } }
  match err with
  | some e => (w', calls, some e)
  | none =>
      ({ w' with progress := dictSet w'.progress "videos" "complete" },
        calls, none)

/-- `workflow['spec']['audio']['music']` placeholder branch of
`_generate_audio`: only sets the stock path, no external call. -/
def setMusicUri (bucket wid : String) (a : AudioSpec) : AudioSpec :=
  match a.music with
  | some m =>
      let uri := gsUri bucket ("workflows/" ++ wid ++ "/audio/music.mp3")
      { a with music := some ({ m with audioUri := some uri }) }
  | none => a

/-- `WorkflowExecutor._generate_audio`: a Gemini TTS call iff a voiceover is
present (raising aborts the stage), then the placeholder music path, then
`progress['audio'] = "complete"`. -/
def runAudioStage (bucket : String) (o : ExecOutcomes) (w : Workflow) :
    Workflow × List CapCall × Option String :=
  match w.spec.audioSpec.voiceover with
  | some vo =>
      let call := CapCall.ttsGenerate vo.script (vo.style.getD "neutral")
      match o.tts with
      | .error e => (w, [call], some e)
      | .ok _ =>
          let voUri :=
            gsUri bucket ("workflows/" ++ w.workflowId ++ "/audio/voiceover.mp3")
          let vo' := { vo with audioUri := some voUri }
          let withVo := { w.spec.audioSpec with voiceover := some vo' }
          let a' := setMusicUri bucket w.workflowId withVo
          ({ w with
              spec := { w.spec with audioSpec := a' },
              progress := dictSet w.progress "audio" "complete" },
            [call], none)
  | none =>
      let a' := setMusicUri bucket w.workflowId w.spec.audioSpec
      ({ w with
          spec := { w.spec with audioSpec := a' },
          progress := dictSet w.progress "audio" "complete" },
        [], none)

/-- The audio-track list built by `_compose_final_video`. -/
def audioTracks (a : AudioSpec) : List String :=
  (match a.voiceover with
    | some vo => match vo.audioUri with
      | some u => [u]
      | none => []
    | none => []) ++
  (match a.music with
    | some m => match m.audioUri with
      | some u => [u]
      | none => []
    | none => [])

/-- `WorkflowExecutor._compose_final_video`: collects every shot's
`video_uri` (KeyError if one is missing), calls ffmpeg compose, uploads and
records `outputs`, marks `progress['composition']`. -/
def composeFinalVideo (bucket : String) (o : ExecOutcomes) (w : Workflow) :
    Workflow × List CapCall × Option String :=
  if w.spec.shots.all (fun s => s.videoUri.isSome) then
    let clips := w.spec.shots.map (fun s => s.videoUri.getD "")
    let call := CapCall.ffmpegCompose clips (audioTracks w.spec.audioSpec)
      w.spec.transitions w.spec.style
    match o.compose with
    | .error e => (w, [call], some e)
    | .ok _ =>
        let finalPath := "workflows/" ++ w.workflowId ++ "/final/commercial.mp4"
        ({ w with
            outputs := some
              { finalVideoUri := gsUri bucket finalPath,
                finalVideoUrl := publicUrl bucket finalPath },
            progress := dictSet w.progress "composition" "complete" },
          [call], none)
  else
    (w, [], some "KeyError: 'video_uri'")

/-- The fixed export target list of `_export_formats`. -/
def exportTargets : List (String × String × String) :=
  [("youtube", "16:9", "1920x1080"),
   ("tiktok", "9:16", "1080x1920"),
   ("instagram", "1:1", "1080x1080")]

/-- The sequential transcode loop of `_export_formats`; a failure raises and
the partially built `format_outputs` dict is discarded. -/
def runTranscodes (bucket wid input : String) (o : ExecOutcomes) :
    Nat → List (String × String × String) →
    List (String × FormatOutput) × List CapCall × Option String
  | _, [] => ([], [], none)
  | i, (name, aspect, res) :: rest =>
      let call := CapCall.ffmpegTranscode input aspect res
      match o.transcode i with
      | .error e => ([], [call], some e)
      | .ok _ =>
          let path := "workflows/" ++ wid ++ "/exports/" ++ name ++ ".mp4"
          let out : FormatOutput :=
            { uri := gsUri bucket path, url := publicUrl bucket path }
          let (outs, calls, err) := runTranscodes bucket wid input o (i + 1) rest
          ((name, out) :: outs, call :: calls, err)

/-- `WorkflowExecutor._export_formats`. Reading
`workflow['outputs']['final_video_uri']` raises a KeyError when outputs are
absent (unreachable through execute_workflow, where composition precedes). -/
def exportFormats (bucket : String) (o : ExecOutcomes) (w : Workflow) :
    Workflow × List CapCall × Option String :=
  match w.outputs with
  | none => (w, [], some "KeyError: 'outputs'")
  | some outs =>
      let (fmts, calls, err) :=
        runTranscodes bucket w.workflowId outs.finalVideoUri o 0 exportTargets
      match err with
      | some e => (w, calls, some e)
      | none =>
          ({ w with outputs := some { outs with formats := fmts } }, calls, none)

/-- `WorkflowExecutor.execute_workflow`: the five stages in order; the first
stage exception marks the workflow dict failed and re-raises; success marks
it completed. The call log accumulates every capability invocation made.
`t` is the logical time used for `completed_at`. -/
def executeWorkflow (bucket : String) (w : Workflow) (o : ExecOutcomes)
    (t : Nat) : Workflow × List CapCall × Option String :=
  let (w1, c1, e1) := generateKeyframes bucket o w
  match e1 with
  | some e => ({ w1 with status := "failed", error := some e }, c1, some e)
  | none =>
  let (w2, c2, e2) := generateVideos bucket o w1
  match e2 with
  | some e => ({ w2 with status := "failed", error := some e }, c1 ++ c2, some e)
  | none =>
  let (w3, c3, e3) := runAudioStage bucket o w2
  match e3 with
  | some e =>
      ({ w3 with status := "failed", error := some e }, c1 ++ c2 ++ c3, some e)
  | none =>
  let (w4, c4, e4) := composeFinalVideo bucket o w3
  match e4 with
  | some e =>
      ({ w4 with status := "failed", error := some e },
        c1 ++ c2 ++ c3 ++ c4, some e)
  | none =>
  let (w5, c5, e5) := exportFormats bucket o w4
  match e5 with
  | some e =>
      ({ w5 with status := "failed", error := some e },
        c1 ++ c2 ++ c3 ++ c4 ++ c5, some e)
  | none =>
      ({ w5 with status := "completed", completedAt := some t },
        c1 ++ c2 ++ c3 ++ c4 ++ c5, none)

/-- The `Job` dataclass of job_queue.py. `progress` is a float that only
ever takes the values 0.0 and 1.0 in the code, embedded as a rational.
Timestamps are logical clock values. -/
structure Job where
  id : String
  workflowJson : Workflow
  status : JobStatus := .queued
  progress : ℚ := 0
  result : Option Workflow := none
  error : Option String := none
  createdAt : Nat
  startedAt : Option Nat := none
  completedAt : Option Nat := none
deriving DecidableEq

/-- `Job(id=job_id, workflow_json=workflow_json)` as built by `submit_job`. -/
def newJob (id : String) (wf : Workflow) (t : Nat) : Job :=
  { id := id, workflowJson := wf, createdAt := t }

/-- `JobQueue._execute_job` run to completion in isolation (no cancellation
signal): sets Running/started_at, awaits execute_workflow, and writes the
terminal fields; the workflow dict is `job.workflow_json` itself, mutated in
place, and `result` is that same dict on success only. Returns the final job
together with the capability calls made. -/
def executeJobPure (bucket : String) (j : Job) (o : ExecOutcomes) (t : Nat) :
    Job × List CapCall :=
  let jr := { j with status := JobStatus.running, startedAt := some t }
  match executeWorkflow bucket jr.workflowJson o t with
  | (w, calls, none) =>
      ({ jr with
          status := JobStatus.completed
          progress := 1
          result := some w
          workflowJson := w
          completedAt := some t }, calls)
  | (w, calls, some e) =>
      ({ jr with
          status := JobStatus.failed
          error := some e
          workflowJson := w
          completedAt := some t }, calls)

/-- Progress of one in-flight `_execute_job` coroutine: `created` is the
window between `create_task` and the first executed line; `executing k`
means the Running job has completed `k` of the five stages of
`execute_workflow`. -/
inductive TaskPhase
  | created
  | executing (k : Nat)
deriving DecidableEq

/-- One live asyncio task spawned by the worker: the heap index of the Job
object it closes over, its phase, and whether `task.cancel()` was called. -/
structure TaskState where
  obj : Nat
  phase : TaskPhase := .created
  cancelRequested : Bool := false
deriving DecidableEq

def isCreated : TaskPhase → Bool
  | .created => true
  | _ => false

def isExecuting : TaskPhase → Bool
  | .executing _ => true
  | _ => false

/-- The state of a `JobQueue` together with its live tasks. `heap` holds
every `Job` object ever constructed (a heap index is Python object
identity); `jobs` is the `self.jobs` dict mapping id to the current object;
`fifo` is `self._queue`; `runningDict` is `self._running_tasks` (id to task
identifier); `tasks` are the live `_execute_job` coroutines (a task
overwritten in `_running_tasks` keeps running); `capLog` records every
external capability invocation with the owning workflow id. -/
structure QState where
  heap : List Job
  jobs : List (String × Nat)
  fifo : List String
  maxConcurrent : Nat
  tasks : List (Nat × TaskState)
  runningDict : List (String × Nat)
  nextTid : Nat
  now : Nat
  bucket : String
  capLog : List (String × CapCall)

/-- A fresh queue, `JobQueue(max_concurrent=k)`. -/
def initState (k : Nat) : QState :=
  { heap := [], jobs := [], fifo := [], maxConcurrent := k, tasks := [],
    runningDict := [], nextTid := 0, now := 0, bucket := "bucket",
    capLog := [] }

/-- `JobQueue.submit_job`: unconditionally creates a Queued job, stores it
under its id (silently replacing any existing record) and appends the id to
the FIFO; returns the id. -/
def submitJob (s : QState) (id : String) (wf : Workflow) : QState × String :=
  let j := newJob id wf s.now
  ({ s with
      heap := s.heap ++ [j]
      jobs := dictSet s.jobs id s.heap.length
      fifo := s.fifo ++ [id] }, id)

/-- Set the cancel flag on task `tid` (the effect of `task.cancel()`). -/
def setCancel (tid : Nat) (l : List (Nat × TaskState)) :
    List (Nat × TaskState) :=
  l.map (fun p =>
    if p.1 = tid then (p.1, { p.2 with cancelRequested := true }) else p)

/-- `JobQueue.cancel_job`: False for an unknown id; for a Running job it
cancels the task registered under the id (if any); for a Queued job it sets
the status to Cancelled directly; in every other case it does nothing — and
it returns True for every existing job, terminal ones included. -/
def cancelJob (s : QState) (id : String) : QState × Bool :=
  match dictGet s.jobs id with
  | none => (s, false)
  | some idx =>
      match s.heap[idx]? with
      | none => (s, true)
      | some j =>
          if j.status = JobStatus.running then
            match dictGet s.runningDict id with
            | some tid => ({ s with tasks := setCancel tid s.tasks }, true)
            | none => (s, true)
          else if j.status = JobStatus.queued then
            ({ s with heap := s.heap.set idx { j with status := JobStatus.cancelled } },
              true)
          else (s, true)

/-- `JobQueue.get_job`. -/
def getJob (s : QState) (id : String) : Option Job :=
  match dictGet s.jobs id with
  | some idx => s.heap[idx]?
  | none => none

/-- `JobQueue.list_jobs`: the registry's values in dict insertion order,
optionally filtered by status. -/
def listJobs (s : QState) (filter : Option JobStatus) : List Job :=
  let all := s.jobs.filterMap (fun p => s.heap[p.2]?)
  match filter with
  | some st => all.filter (fun j => j.status == st)
  | none => all

/-- One iteration of the `_worker` loop that popped a job id: a missing
record is skipped (`if not job: continue`); otherwise the worker waits until
`len(_running_tasks) < max_concurrent` (modelled as the step only firing
then) and starts `_execute_job` as a new task registered under the id —
without ever looking at the job's status. -/
def workerStep (s : QState) : QState :=
  match s.fifo with
  | [] => s
  | id :: rest =>
      match dictGet s.jobs id with
      | none => { s with fifo := rest }
      | some idx =>
          if s.runningDict.length < s.maxConcurrent then
            { s with
                fifo := rest
                tasks := s.tasks ++ [(s.nextTid, { obj := idx })]
                runningDict := dictSet s.runningDict id s.nextTid
                nextTid := s.nextTid + 1 }
          else s

def taskGet (s : QState) (tid : Nat) : Option TaskState :=
  (s.tasks.find? (fun p => p.1 == tid)).map (fun p => p.2)

def updateTask (tid : Nat) (ts : TaskState) (l : List (Nat × TaskState)) :
    List (Nat × TaskState) :=
  l.map (fun p => if p.1 = tid then (p.1, ts) else p)

/-- Task `tid` starts executing `_execute_job`'s body: the job object is set
Running with `started_at`, regardless of its current status (the worker and
`_execute_job` never re-check it — a job cancelled while queued is started
all the same). -/
def beginTaskStep (s : QState) (tid : Nat) : QState :=
  match taskGet s tid with
  | some ts =>
      if ts.phase = TaskPhase.created then
        match s.heap[ts.obj]? with
        | some j =>
            { s with
                heap := s.heap.set ts.obj
                  { j with status := JobStatus.running, startedAt := some s.now },
                tasks := updateTask tid { ts with phase := .executing 0 } s.tasks }
        | none => s
      else s
  | none => s

/-- The common exit path of `_execute_job`: write the final job object,
run the `finally` cleanup (`if job.id in self._running_tasks: del ...`,
which deletes whatever task is registered under that id), and end the task. -/
def finalizeTask (s : QState) (tid objIdx : Nat) (j' : Job)
    (log : List (String × CapCall)) : QState :=
  { s with
      heap := s.heap.set objIdx j'
      runningDict := dictDel s.runningDict j'.id
      tasks := s.tasks.filter (fun p => p.1 != tid)
      capLog := log }

/-- Stage `k` of `execute_workflow` (keyframes, videos, audio, composition,
export in the fixed order). -/
def runStage (bucket : String) (k : Nat) (o : ExecOutcomes) (w : Workflow) :
    Workflow × List CapCall × Option String :=
  match k with
  | 0 => generateKeyframes bucket o w
  | 1 => generateVideos bucket o w
  | 2 => runAudioStage bucket o w
  | 3 => composeFinalVideo bucket o w
  | _ => exportFormats bucket o w

/-- Task `tid` runs its next pipeline stage with environment-chosen
capability outcomes `o`. The stage mutates `job.workflow_json` in place. A
stage exception propagates synchronously: `execute_workflow` marks the dict
failed and re-raises, `_execute_job` marks the job Failed and cleans up.
After the fifth stage, `execute_workflow` returns and `_execute_job` marks
the job Completed with progress 1.0 and `result` set to the same dict. -/
def stageStep (s : QState) (tid : Nat) (o : ExecOutcomes) : QState :=
  match taskGet s tid with
  | some ts =>
      match ts.phase with
      | .executing k =>
          match s.heap[ts.obj]? with
          | some j =>
              let (w', calls, err) := runStage s.bucket k o j.workflowJson
              let log := s.capLog ++ calls.map (fun c => (w'.workflowId, c))
              match err with
              | some e =>
                  let wf := { w' with status := "failed", error := some e }
                  let jF := { j with
                    workflowJson := wf
                    status := JobStatus.failed
                    error := some e
                    completedAt := some s.now }
                  finalizeTask s tid ts.obj jF log
              | none =>
                  if k = 4 then
                    let wc := { w' with
                      status := "completed"
                      completedAt := some s.now }
                    let jC := { j with
                      workflowJson := wc
                      status := JobStatus.completed
                      progress := 1
                      result := some wc
                      completedAt := some s.now }
                    finalizeTask s tid ts.obj jC log
                  else
                    { s with
                        heap := s.heap.set ts.obj { j with workflowJson := w' }
                        tasks := updateTask tid { ts with phase := .executing (k + 1) } s.tasks
                        capLog := log }
          | none => s
      | .created => s
  | none => s

/-- A cancelled task observes `CancelledError` at its next suspension point
(a stage boundary): `_execute_job`'s handler marks the job Cancelled and the
`finally` cleanup runs. -/
def observeCancelStep (s : QState) (tid : Nat) : QState :=
  match taskGet s tid with
  | some ts =>
      if ts.cancelRequested && isExecuting ts.phase then
        match s.heap[ts.obj]? with
        | some j =>
            finalizeTask s tid ts.obj
              { j with status := JobStatus.cancelled, completedAt := some s.now }
              s.capLog
        | none => s
      else s
  | none => s

/-- The interleaved events of the queue system: caller-driven submissions
and cancellations, worker dispatch iterations, and scheduler steps of the
live tasks (with the environment choosing each stage's external outcomes). -/
inductive Event
  | submit (id : String) (wf : Workflow)
  | workerLoop
  | beginTask (tid : Nat)
  | stageRun (tid : Nat) (o : ExecOutcomes)
  | observeCancel (tid : Nat)
  | cancel (id : String)

/-- One scheduler step; the logical clock advances with every event. -/
def step (s : QState) (e : Event) : QState :=
  let s' :=
    match e with
    | .submit id wf => (submitJob s id wf).1
    | .workerLoop => workerStep s
    | .beginTask tid => beginTaskStep s tid
    | .stageRun tid o => stageStep s tid o
    | .observeCancel tid => observeCancelStep s tid
    | .cancel id => (cancelJob s id).1
  { s' with now := s'.now + 1 }

/-- A run of the system over a trace of events. -/
def run (s : QState) (es : List Event) : QState := es.foldl step s

/-- The number of Job objects simultaneously in status Running. -/
def countRunning (s : QState) : Nat :=
  s.heap.countP (fun j => j.status == JobStatus.running)

/-- The ids of the submit events of a trace, in order. -/
def submitIds : List Event → List String
  | [] => []
  | .submit id _ :: es => id :: submitIds es
  | _ :: es => submitIds es

/-! Concrete fixtures used by the scenario theorems. -/

/-- A minimal concrete shot. -/
def shotA : Shot :=
  { sceneDescription := "scene", cameraMovement := "pan", lighting := "soft",
    framing := "wide", mood := "calm", duration := 5 }

/-- A one-shot workflow as produced by the orchestrator. -/
def wf0 : Workflow :=
  { workflowId := "w0",
    spec := { shots := [shotA], style := {}, audioSpec := {} },
    status := "planned", progress := initialProgress }

/-- A four-shot workflow. -/
def wf4 : Workflow :=
  { workflowId := "w4",
    spec := { shots := [shotA, shotA, shotA, shotA], style := {}, audioSpec := {} },
    status := "planned", progress := initialProgress }

/-- Outcomes where every external capability call succeeds. -/
def okOut : ExecOutcomes :=
  { keyframe := fun _ => .ok "img", video := fun _ => .ok "vid",
    tts := .ok "speech", compose := .ok "/tmp/out.mp4",
    transcode := fun _ => .ok "/tmp/fmt.mp4" }

/-- Outcomes where the second shot's keyframe generation fails. -/
def kfFailOut : ExecOutcomes :=
  { okOut with keyframe := fun i => if i == 1 then .error "imagen quota" else .ok "img" }

/-- Outcomes where every keyframe fails (used to finish a job quickly). -/
def allKfFailOut : ExecOutcomes :=
  { okOut with keyframe := fun _ => .error "imagen down" }

/-- Outcomes where shot 3 (index 2) of the video stage fails. -/
def veoFailOut : ExecOutcomes :=
  { okOut with video := fun i => if i == 2 then .error "veo failed" else .ok "vid" }

/-- The id stored at a heap index, Python's `job.id` for an object. -/
def objId (s : QState) (i : Nat) : Option String :=
  (s.heap[i]?).map Job.id

/-- The single-writer/bounded-concurrency invariant of a queue whose
submissions all used distinct ids. It ties together the registry, the FIFO,
the live tasks and the `_running_tasks` dict. -/
structure Inv (s : QState) : Prop where
  capBound : s.runningDict.length ≤ s.maxConcurrent
  runningOwned : ∀ (i : Nat) (j : Job), s.heap[i]? = some j →
    j.status = JobStatus.running →
    ∃ p ∈ s.tasks, p.2.obj = i ∧ isExecuting p.2.phase = true
  objsDistinct : s.tasks.Pairwise (fun p q => p.2.obj ≠ q.2.obj)
  taskRegistered : ∀ p ∈ s.tasks, ∃ a, objId s p.2.obj = some a ∧
    dictGet s.runningDict a = some p.1
  tidsNodup : (s.tasks.map Prod.fst).Nodup
  tidsLt : ∀ p ∈ s.tasks, p.1 < s.nextTid
  registryWF : ∀ q ∈ s.jobs, objId s q.2 = some q.1
  fifoReg : ∀ a ∈ s.fifo, (dictGet s.jobs a).isSome = true
  fifoNodup : s.fifo.Nodup
  taskIdsNotQueued : ∀ p ∈ s.tasks, ∀ a, objId s p.2.obj = some a → a ∉ s.fifo
  dictBacked : ∀ e ∈ s.runningDict, ∃ p ∈ s.tasks, p.1 = e.2 ∧
    objId s p.2.obj = some e.1
  dictKeysNodup : (s.runningDict.map Prod.fst).Nodup
  heapIdsReg : ∀ (i : Nat) (j : Job), s.heap[i]? = some j →
    (dictGet s.jobs j.id).isSome = true
  heapIdsNodup : ∀ (i : Nat) (j : Job) (i' : Nat) (j' : Job),
    s.heap[i]? = some j → s.heap[i']? = some j' → j.id = j'.id → i = i'
  execRunning : ∀ p ∈ s.tasks, isExecuting p.2.phase = true →
    ∀ j, s.heap[p.2.obj]? = some j → j.status = JobStatus.running
  countBound : s.heap.countP (fun j => j.status == JobStatus.running) +
    s.tasks.countP (fun p => isCreated p.2.phase) ≤ s.runningDict.length

/-- Freshness side condition of an event: a submission must use an id not
already in the registry (i.e. all submissions in the trace use distinct
ids); every other event is unconstrained. -/
def FreshOK (s : QState) : Event → Prop
  | .submit id _ => dictGet s.jobs id = none
  | _ => True

/-- The creation times of the registry's jobs, in registry order. -/
def regCreatedAts (s : QState) : List Nat :=
  s.jobs.filterMap (fun p => (s.heap[p.2]?).map Job.createdAt)

/-- The chronological-order invariant used for the List ordering claim. -/
def ChronoInv (s : QState) : Prop :=
  (regCreatedAts s).Pairwise (· ≤ ·) ∧
  (∀ c ∈ regCreatedAts s, c < s.now) ∧
  (∀ p ∈ s.jobs, p.2 < s.heap.length)

/-- Recogniser for keyframe-stage capability calls. -/
def isImagenCall : CapCall → Bool
  | .imagenGenerate _ _ _ => true
  | _ => false

/-- Recogniser for video-stage (Veo) capability calls. -/
def isVeoCall : CapCall → Bool
  | .veoGenerate _ _ _ _ => true
  | _ => false

/-- An empty submission: a workflow dict with no shots, no style keys, no
audio and an empty progress map. -/
def emptyWf : Workflow :=
  { workflowId := "", spec := { shots := [], style := {}, audioSpec := {} },
    status := "", progress := [] }

/-- A registry state holding one already-Completed job. -/
def jTerm : Job := { newJob "j" wf0 0 with status := JobStatus.completed }

def sTerm : QState := { initState 1 with heap := [jTerm], jobs := [("j", 0)] }

end CreativeStudio

namespace CreativeStudio

/-! ### Dictionary lemmas -/

theorem dictGet_set_self {α : Type} (m : List (String × α)) (k : String)
    (v : α) : dictGet (dictSet m k v) k = some v := by
  induction m with
  | nil => simp [dictSet, dictGet]
  | cons p m ih =>
      by_cases hp : p.1 = k
      · simp [dictSet, dictGet, hp]
      · simp [dictSet, dictGet, hp, ih]

theorem dictGet_set_ne {α : Type} (m : List (String × α)) (k k' : String)
    (v : α) (h : k' ≠ k) : dictGet (dictSet m k v) k' = dictGet m k' := by
  have hkk : ¬k = k' := fun hh => h hh.symm
  induction m with
  | nil => simp [dictSet, dictGet, hkk]
  | cons p m ih =>
      by_cases hp : p.1 = k
      · simp [dictSet, dictGet, hp, hkk]
      · by_cases hp' : p.1 = k'
        · simp [dictSet, dictGet, hp, hp', h]
        · simp [dictSet, dictGet, hp, hp', ih]

theorem dictGet_del_ne {α : Type} (m : List (String × α)) (k k' : String)
    (h : k' ≠ k) : dictGet (dictDel m k) k' = dictGet m k' := by
  have hkk : ¬k = k' := fun hh => h hh.symm
  induction m with
  | nil => rfl
  | cons p m ih =>
      by_cases hp : p.1 = k
      · have hb : (p.1 != k) = false := by simp [hp]
        have hp' : ¬p.1 = k' := by rw [hp]; exact hkk
        simp only [dictDel, List.filter_cons, hb]
        rw [show dictGet (p :: m) k' = dictGet m k' by
          simp [dictGet, hp', if_neg]]
        exact ih
      · have hb : (p.1 != k) = true := by simp [hp]
        simp only [dictDel, List.filter_cons, hb]
        by_cases hp' : p.1 = k'
        · simp [dictGet, hp']
        · simp only [dictGet, hp', if_neg]
          exact ih

theorem dictSet_keys_mem {α : Type} (m : List (String × α)) (k a : String)
    (v : α) (h : a ∈ (dictSet m k v).map Prod.fst) :
    a = k ∨ a ∈ m.map Prod.fst := by
  induction m with
  | nil =>
      simp only [dictSet, List.map_cons, List.map_nil,
        List.mem_singleton] at h
      exact Or.inl h
  | cons p m ih =>
      by_cases hp : p.1 = k
      · simp only [dictSet, hp, if_pos, List.map_cons, List.mem_cons] at h
        rcases h with h | h
        · exact Or.inl h
        · exact Or.inr (List.mem_cons_of_mem _ h)
      · simp only [dictSet, hp, if_neg, Bool.false_eq_true, not_false_iff,
          List.map_cons, List.mem_cons] at h
        rcases h with h | h
        · exact Or.inr (by simp [h])
        · rcases ih h with h2 | h2
          · exact Or.inl h2
          · exact Or.inr (List.mem_cons_of_mem _ h2)

theorem dictKeys_set_nodup {α : Type} (m : List (String × α)) (k : String)
    (v : α) (h : (m.map Prod.fst).Nodup) :
    ((dictSet m k v).map Prod.fst).Nodup := by
  induction m with
  | nil => simp [dictSet]
  | cons p m ih =>
      simp only [List.map_cons, List.nodup_cons] at h
      by_cases hp : p.1 = k
      · simp only [dictSet, hp, if_pos, List.map_cons, List.nodup_cons]
        exact ⟨hp ▸ h.1, h.2⟩
      · simp only [dictSet, hp, if_neg, Bool.false_eq_true, not_false_iff,
          List.map_cons, List.nodup_cons]
        refine ⟨?_, ih h.2⟩
        intro hmem
        rcases dictSet_keys_mem m k p.1 v hmem with h2 | h2
        · exact hp h2
        · exact h.1 h2

theorem dictKeys_del_nodup {α : Type} (m : List (String × α)) (k : String)
    (h : (m.map Prod.fst).Nodup) : ((dictDel m k).map Prod.fst).Nodup := by
  have : (dictDel m k).Sublist m := List.filter_sublist m
  exact (this.map Prod.fst).nodup h

theorem length_dictDel_of_mem {α : Type} (m : List (String × α)) (k : String)
    (hn : (m.map Prod.fst).Nodup) (hs : (dictGet m k).isSome = true) :
    (dictDel m k).length + 1 = m.length := by
  induction m with
  | nil => simp [dictGet] at hs
  | cons p m ih =>
      by_cases hp : p.1 = k
      · have h1 : (p.1 != k) = false := by simp [hp]
        have hd : dictDel (p :: m) k = dictDel m k := by
          simp [dictDel, List.filter_cons, h1]
        have hm : dictDel m k = m := by
          simp only [List.map_cons, List.nodup_cons] at hn
          have hnk : k ∉ m.map Prod.fst := hp ▸ hn.1
          apply List.filter_eq_self.2
          intro q hq
          simp only [bne_iff_ne, ne_eq]
          intro hqk
          exact hnk (hqk ▸ List.mem_map_of_mem Prod.fst hq)
        rw [hd, hm, List.length_cons]
      · have h1 : (p.1 != k) = true := by simp [hp]
        have hd : dictDel (p :: m) k = p :: dictDel m k := by
          simp [dictDel, List.filter_cons, h1]
        simp only [dictGet, hp, if_neg] at hs
        simp only [List.map_cons, List.nodup_cons] at hn
        have := ih hn.2 hs
        rw [hd, List.length_cons, List.length_cons]
        omega

theorem dictGet_isSome_of_mem {α : Type} (m : List (String × α))
    (e : String × α) (he : e ∈ m) : (dictGet m e.1).isSome = true := by
  induction m with
  | nil => simp at he
  | cons p m ih =>
      rcases List.mem_cons.1 he with he | he
      · subst he; simp [dictGet]
      · by_cases hp : p.1 = e.1
        · simp [dictGet, hp]
        · simp only [dictGet, hp, if_neg]
          exact ih he

theorem dictGet_mem {α : Type} (m : List (String × α)) (k : String) (v : α)
    (h : dictGet m k = some v) : (k, v) ∈ m := by
  induction m with
  | nil => simp [dictGet] at h
  | cons p m ih =>
      by_cases hp : p.1 = k
      · simp only [dictGet, hp, if_pos, Option.some.injEq] at h
        have hpv : p = (k, v) := by
          obtain ⟨p1, p2⟩ := p
          simp only at hp h
          rw [hp, h]
        exact List.mem_cons.2 (Or.inl hpv.symm)
      · simp only [dictGet, hp, if_neg] at h
        exact List.mem_cons_of_mem _ (ih h)

end CreativeStudio

namespace CreativeStudio

/-! ### Task-list lemmas -/

theorem updateTask_fst (tid : Nat) (ts : TaskState)
    (l : List (Nat × TaskState)) :
    (updateTask tid ts l).map Prod.fst = l.map Prod.fst := by
  induction l with
  | nil => rfl
  | cons p l ih =>
      by_cases hp : p.1 = tid
      · simp [updateTask, hp] at ih ⊢
        exact ih
      · simp [updateTask, hp] at ih ⊢
        exact ih

theorem setCancel_fst (tid : Nat) (l : List (Nat × TaskState)) :
    (setCancel tid l).map Prod.fst = l.map Prod.fst := by
  induction l with
  | nil => rfl
  | cons p l ih =>
      by_cases hp : p.1 = tid
      · simp [setCancel, hp] at ih ⊢
        exact ih
      · simp [setCancel, hp] at ih ⊢
        exact ih

theorem mem_setCancel (tid : Nat) (l : List (Nat × TaskState))
    (p : Nat × TaskState) (h : p ∈ setCancel tid l) :
    ∃ q ∈ l, p.1 = q.1 ∧ p.2.obj = q.2.obj ∧ p.2.phase = q.2.phase := by
  rcases List.mem_map.1 h with ⟨q, hq, hpq⟩
  refine ⟨q, hq, ?_⟩
  by_cases ht : q.1 = tid
  · rw [if_pos ht] at hpq
    rw [← hpq]
    exact ⟨rfl, rfl, rfl⟩
  · rw [if_neg ht] at hpq
    rw [← hpq]
    exact ⟨rfl, rfl, rfl⟩

theorem setCancel_mem (tid : Nat) (l : List (Nat × TaskState))
    (q : Nat × TaskState) (h : q ∈ l) :
    ∃ p ∈ setCancel tid l, p.1 = q.1 ∧ p.2.obj = q.2.obj ∧
      p.2.phase = q.2.phase := by
  by_cases ht : q.1 = tid
  · refine ⟨(q.1, { q.2 with cancelRequested := true }), ?_, rfl, rfl, rfl⟩
    have he : (q.1, { q.2 with cancelRequested := true }) =
        (fun p => if p.1 = tid then (p.1, { p.2 with cancelRequested := true })
          else p) q := by
      simp [ht]
    rw [he]
    exact List.mem_map_of_mem _ h
  · refine ⟨q, ?_, rfl, rfl, rfl⟩
    have he : q = (fun p => if p.1 = tid then
        (p.1, { p.2 with cancelRequested := true }) else p) q := by
      simp [ht]
    rw [he]
    exact List.mem_map_of_mem _ h

theorem mem_updateTask (tid : Nat) (ts : TaskState)
    (l : List (Nat × TaskState)) (p : Nat × TaskState)
    (h : p ∈ updateTask tid ts l) :
    ∃ q ∈ l, p.1 = q.1 ∧ (p.2 = q.2 ∨ (p.1 = tid ∧ p.2 = ts)) := by
  rcases List.mem_map.1 h with ⟨q, hq, hpq⟩
  by_cases ht : q.1 = tid
  · rw [if_pos ht] at hpq
    refine ⟨q, hq, ?_, ?_⟩
    · rw [← hpq]
    · right
      rw [← hpq]
      exact ⟨ht, rfl⟩
  · rw [if_neg ht] at hpq
    subst hpq
    exact ⟨q, hq, rfl, Or.inl rfl⟩

theorem updateTask_mem (tid : Nat) (ts : TaskState)
    (l : List (Nat × TaskState)) (q : Nat × TaskState) (h : q ∈ l) :
    (q.1 = tid ∧ (q.1, ts) ∈ updateTask tid ts l) ∨
      (q.1 ≠ tid ∧ q ∈ updateTask tid ts l) := by
  by_cases ht : q.1 = tid
  · left
    have hmem : (q.1, ts) ∈ updateTask tid ts l := by
      have he : (q.1, ts) =
          (fun p => if p.1 = tid then (p.1, ts) else p) q := by simp [ht]
      rw [he]
      exact List.mem_map_of_mem _ h
    exact ⟨ht, hmem⟩
  · right
    have hmem : q ∈ updateTask tid ts l := by
      have he : q = (fun p => if p.1 = tid then (p.1, ts) else p) q := by
        simp [ht]
      rw [he]
      exact List.mem_map_of_mem _ h
    exact ⟨ht, hmem⟩

/-- Two entries of a fst-Nodup association list with the same key are one
entry. -/
theorem eq_of_mem_nodup_fst {β : Type} (l : List (Nat × β))
    (hn : (l.map Prod.fst).Nodup) (p q : Nat × β) (hp : p ∈ l) (hq : q ∈ l)
    (h : p.1 = q.1) : p = q := by
  induction l with
  | nil => simp at hp
  | cons r l ih =>
      simp only [List.map_cons, List.nodup_cons] at hn
      rcases List.mem_cons.1 hp with hp1 | hp1 <;>
        rcases List.mem_cons.1 hq with hq1 | hq1
      · rw [hp1, hq1]
      · exfalso
        apply hn.1
        have hr : r.1 = q.1 := by rw [← hp1]; exact h
        rw [hr]
        exact List.mem_map_of_mem Prod.fst hq1
      · exfalso
        apply hn.1
        have hr : r.1 = p.1 := by rw [← hq1]; exact h.symm
        rw [hr]
        exact List.mem_map_of_mem Prod.fst hp1
      · exact ih hn.2 hp1 hq1

theorem find?_eq_some_of_mem_nodup (l : List (Nat × TaskState))
    (hn : (l.map Prod.fst).Nodup) (p : Nat × TaskState) (hp : p ∈ l) :
    l.find? (fun q => q.1 == p.1) = some p := by
  induction l with
  | nil => simp at hp
  | cons r l ih =>
      simp only [List.map_cons, List.nodup_cons] at hn
      rcases List.mem_cons.1 hp with hp1 | hp1
      · subst hp1
        simp [List.find?_cons_of_pos]
      · have hr : ¬r.1 = p.1 := by
          intro h
          exact hn.1 (h ▸ List.mem_map_of_mem Prod.fst hp1)
        rw [List.find?_cons_of_neg _ (by simpa using hr)]
        exact ih hn.2 hp1

end CreativeStudio

namespace CreativeStudio

/-! ### Counting helper lemmas -/

theorem updateTask_eq_of_no_key (tid : Nat) (ts : TaskState)
    (l : List (Nat × TaskState)) (h : ∀ q ∈ l, q.1 ≠ tid) :
    updateTask tid ts l = l := by
  induction l with
  | nil => rfl
  | cons p l ih =>
      have hp : ¬p.1 = tid := h p (List.mem_cons_self p l)
      simp only [updateTask, List.map_cons, beq_iff_eq, hp, if_neg,
        Bool.false_eq_true, not_false_iff, List.cons.injEq, true_and]
      exact ih (fun q hq => h q (List.mem_cons_of_mem p hq))

theorem countP_setCancel (tid : Nat) (l : List (Nat × TaskState))
    (pr : TaskPhase → Bool) :
    (setCancel tid l).countP (fun p => pr p.2.phase)
      = l.countP (fun p => pr p.2.phase) := by
  induction l with
  | nil => rfl
  | cons p l ih =>
      by_cases hp : p.1 = tid
      · simp only [setCancel, List.map_cons, beq_iff_eq, hp, if_pos]
        rw [List.countP_cons, List.countP_cons]
        simp only [setCancel] at ih
        rw [ih]
      · simp only [setCancel, List.map_cons, beq_iff_eq, hp, if_neg,
          Bool.false_eq_true, not_false_iff]
        rw [List.countP_cons, List.countP_cons]
        simp only [setCancel] at ih
        rw [ih]

theorem countP_updateTask_same (tid : Nat) (ts : TaskState)
    (l : List (Nat × TaskState)) (pr : (Nat × TaskState) → Bool)
    (hsame : ∀ q ∈ l, q.1 = tid → pr (q.1, ts) = pr q) :
    (updateTask tid ts l).countP pr = l.countP pr := by
  induction l with
  | nil => rfl
  | cons p l ih =>
      have ihl := ih (fun q hq => hsame q (List.mem_cons_of_mem p hq))
      by_cases hp : p.1 = tid
      · simp only [updateTask, List.map_cons, beq_iff_eq, hp, if_pos]
        rw [List.countP_cons, List.countP_cons]
        simp only [updateTask] at ihl
        rw [ihl]
        have hpr := hsame p (List.mem_cons_self p l) hp
        rw [hp] at hpr
        rw [hpr]
      · simp only [updateTask, List.map_cons, beq_iff_eq, hp, if_neg,
          Bool.false_eq_true, not_false_iff]
        rw [List.countP_cons, List.countP_cons]
        simp only [updateTask] at ihl
        rw [ihl]

theorem countP_updateTask_target (tid : Nat) (ts : TaskState)
    (l : List (Nat × TaskState)) (pr : (Nat × TaskState) → Bool)
    (hn : (l.map Prod.fst).Nodup) (p : Nat × TaskState) (hp : p ∈ l)
    (hfst : p.1 = tid) (hold : pr p = true) (hnew : pr (p.1, ts) = false) :
    (updateTask tid ts l).countP pr + 1 = l.countP pr := by
  induction l with
  | nil => simp at hp
  | cons r l ih =>
      simp only [List.map_cons, List.nodup_cons] at hn
      rcases List.mem_cons.1 hp with hp1 | hp1
      · subst hp1
        have hhead : updateTask tid ts (p :: l)
            = (p.1, ts) :: updateTask tid ts l := by
          unfold updateTask
          rw [List.map_cons]
          congr 1
          simp [hfst]
        have hrest : updateTask tid ts l = l := by
          apply updateTask_eq_of_no_key
          intro q hq hq1
          exact hn.1 (hfst ▸ hq1 ▸ List.mem_map_of_mem Prod.fst hq)
        rw [hhead, hrest, List.countP_cons, List.countP_cons, hold, hnew]
        simp
      · have hr : ¬r.1 = tid := by
          intro hh
          rw [← hfst] at hh
          have : p.1 ∈ l.map Prod.fst := List.mem_map_of_mem Prod.fst hp1
          rw [← hh] at this
          exact hn.1 this
        simp only [updateTask, List.map_cons, beq_iff_eq, hr, if_neg,
          Bool.false_eq_true, not_false_iff]
        rw [List.countP_cons, List.countP_cons]
        have := ih hn.2 hp1
        simp only [updateTask] at this
        omega

end CreativeStudio

namespace CreativeStudio

/-! ### Heap lemmas and invariant preservation -/

theorem countP_set_of_getElem {α : Type} :
    ∀ (l : List α) (i : Nat) (a b : α) (p : α → Bool),
    l[i]? = some a →
    (l.set i b).countP p + (if p a then 1 else 0)
      = l.countP p + (if p b then 1 else 0)
  | [], i, _, _, _, h => by simp at h
  | x :: l, 0, a, b, p, h => by
      simp only [List.getElem?_cons_zero, Option.some.injEq] at h
      subst h
      simp only [List.set_cons_zero, List.countP_cons]
      omega
  | x :: l, i + 1, a, b, p, h => by
      simp only [List.getElem?_cons_succ] at h
      have ih := countP_set_of_getElem l i a b p h
      simp only [List.set_cons_succ, List.countP_cons]
      omega

theorem heapId_set (h : List Job) (idx : Nat) (j j' : Job)
    (hj : h[idx]? = some j) (hid : j'.id = j.id) (i : Nat) :
    ((h.set idx j')[i]?).map Job.id = (h[i]?).map Job.id := by
  by_cases hi : idx = i
  · subst hi
    have hlt : idx < h.length := List.getElem?_eq_some_iff.1 hj |>.1
    rw [List.getElem?_set_self (by simpa using hlt), hj]
    simp [hid]
  · rw [List.getElem?_set_ne hi]

theorem invInit (k : Nat) : Inv (initState k) := by
  constructor <;> simp [initState, objId]

/-- `cancel_job` preserves the queue invariant. -/
theorem inv_cancel (s : QState) (id : String) (h : Inv s) :
    Inv (cancelJob s id).1 := by
  unfold cancelJob
  cases hj : dictGet s.jobs id with
  | none => exact h
  | some idx =>
      dsimp only
      cases hh : s.heap[idx]? with
      | none => exact h
      | some j =>
          dsimp only
          by_cases hr : j.status = JobStatus.running
          · rw [if_pos hr]
            cases hd : dictGet s.runningDict id with
            | none => exact h
            | some tid =>
                dsimp only
                constructor
                · exact h.capBound
                · -- runningOwned
                  intro i j' hij hrun
                  obtain ⟨p, hp, hobj, hex⟩ := h.runningOwned i j' hij hrun
                  obtain ⟨p', hp', hfst, hobjeq, hph⟩ :=
                    setCancel_mem tid s.tasks p hp
                  exact ⟨p', hp', by rw [hobjeq, hobj],
                    by rw [hph]; exact hex⟩
                · -- objsDistinct
                  refine (List.pairwise_map).2 (h.objsDistinct.imp ?_)
                  intro a b hab
                  by_cases ha : a.1 = tid <;> by_cases hb : b.1 = tid <;>
                    simp [ha, hb] <;> exact hab
                · -- taskRegistered
                  intro p hp
                  obtain ⟨q, hq, hfst, hobj, _⟩ := mem_setCancel tid s.tasks p hp
                  obtain ⟨a, ha, hd2⟩ := h.taskRegistered q hq
                  refine ⟨a, ?_, by rw [hfst]; exact hd2⟩
                  show objId s p.2.obj = some a
                  rw [hobj]; exact ha
                · -- tidsNodup
                  show ((setCancel tid s.tasks).map Prod.fst).Nodup
                  rw [setCancel_fst]; exact h.tidsNodup
                · -- tidsLt
                  intro p hp
                  obtain ⟨q, hq, hfst, _, _⟩ := mem_setCancel tid s.tasks p hp
                  rw [hfst]; exact h.tidsLt q hq
                · exact h.registryWF
                · exact h.fifoReg
                · exact h.fifoNodup
                · -- taskIdsNotQueued
                  intro p hp a hoa
                  obtain ⟨q, hq, _, hobj, _⟩ := mem_setCancel tid s.tasks p hp
                  have hoa' : objId s q.2.obj = some a := by rw [← hobj]; exact hoa
                  exact h.taskIdsNotQueued q hq a hoa'
                · -- dictBacked
                  intro e he
                  obtain ⟨p, hp, hpe, hoe⟩ := h.dictBacked e he
                  obtain ⟨p', hp', hfst, hobj, _⟩ := setCancel_mem tid s.tasks p hp
                  refine ⟨p', hp', by rw [hfst]; exact hpe, ?_⟩
                  show objId s p'.2.obj = some e.1
                  rw [hobj]; exact hoe
                · exact h.dictKeysNodup
                · exact h.heapIdsReg
                · exact h.heapIdsNodup
                · -- execRunning
                  intro p hp hex j' hj'
                  obtain ⟨q, hq, _, hobj, hph⟩ := mem_setCancel tid s.tasks p hp
                  refine h.execRunning q hq (by rw [← hph]; exact hex) j' ?_
                  rw [← hobj]; exact hj'
                · -- countBound
                  show s.heap.countP _ + (setCancel tid s.tasks).countP
                    (fun p => isCreated p.2.phase) ≤ s.runningDict.length
                  rw [countP_setCancel tid s.tasks isCreated]
                  exact h.countBound
          · rw [if_neg hr]
            by_cases hq : j.status = JobStatus.queued
            · rw [if_pos hq]
              dsimp only
              have hid : ({ j with status := JobStatus.cancelled } : Job).id = j.id := rfl
              constructor
              · exact h.capBound
              · -- runningOwned
                intro i j' hij hrun
                by_cases hi : idx = i
                · subst hi
                  have hlt : idx < s.heap.length :=
                    List.getElem?_eq_some_iff.1 hh |>.1
                  rw [List.getElem?_set_self (by simpa using hlt)] at hij
                  cases hij
                  simp at hrun
                · rw [List.getElem?_set_ne hi] at hij
                  exact h.runningOwned i j' hij hrun
              · exact h.objsDistinct
              · -- taskRegistered
                intro p hp
                obtain ⟨a, ha, hd2⟩ := h.taskRegistered p hp
                refine ⟨a, ?_, hd2⟩
                show ((s.heap.set idx _)[p.2.obj]?).map Job.id = some a
                rw [heapId_set s.heap idx j _ hh hid]
                exact ha
              · exact h.tidsNodup
              · exact h.tidsLt
              · -- registryWF
                intro q hqm
                have := h.registryWF q hqm
                show ((s.heap.set idx _)[q.2]?).map Job.id = some q.1
                rw [heapId_set s.heap idx j _ hh hid]
                exact this
              · exact h.fifoReg
              · exact h.fifoNodup
              · -- taskIdsNotQueued
                intro p hp a hoa
                have hoa' : objId s p.2.obj = some a := by
                  show (s.heap[p.2.obj]?).map Job.id = some a
                  rw [← heapId_set s.heap idx j _ hh hid]
                  exact hoa
                exact h.taskIdsNotQueued p hp a hoa'
              · -- dictBacked
                intro e he
                obtain ⟨p, hp, hpe, hoe⟩ := h.dictBacked e he
                refine ⟨p, hp, hpe, ?_⟩
                show ((s.heap.set idx _)[p.2.obj]?).map Job.id = some e.1
                rw [heapId_set s.heap idx j _ hh hid]
                exact hoe
              · exact h.dictKeysNodup
              · -- heapIdsReg
                intro i j' hij
                by_cases hi : idx = i
                · subst hi
                  have hlt : idx < s.heap.length :=
                    List.getElem?_eq_some_iff.1 hh |>.1
                  rw [List.getElem?_set_self (by simpa using hlt)] at hij
                  cases hij
                  exact h.heapIdsReg idx j hh
                · rw [List.getElem?_set_ne hi] at hij
                  exact h.heapIdsReg i j' hij
              · -- heapIdsNodup
                intro i j1 i' j1' hi1 hi1' hideq
                have hlt : idx < s.heap.length :=
                  List.getElem?_eq_some_iff.1 hh |>.1
                by_cases hi : idx = i <;> by_cases hi' : idx = i'
                · rw [← hi, ← hi']
                · subst hi
                  rw [List.getElem?_set_self (by simpa using hlt)] at hi1
                  rw [List.getElem?_set_ne hi'] at hi1'
                  cases hi1
                  exact h.heapIdsNodup idx j i' j1' hh hi1' hideq
                · subst hi'
                  rw [List.getElem?_set_self (by simpa using hlt)] at hi1'
                  rw [List.getElem?_set_ne hi] at hi1
                  cases hi1'
                  exact h.heapIdsNodup i j1 idx j hi1 hh hideq
                · rw [List.getElem?_set_ne hi] at hi1
                  rw [List.getElem?_set_ne hi'] at hi1'
                  exact h.heapIdsNodup i j1 i' j1' hi1 hi1' hideq
              · -- execRunning
                intro p hp hex j' hj'
                by_cases hi : idx = p.2.obj
                · exfalso
                  have := h.execRunning p hp hex j (hi ▸ hh)
                  exact hr this
                · rw [List.getElem?_set_ne hi] at hj'
                  exact h.execRunning p hp hex j' hj'
              · -- countBound
                have hcnt := countP_set_of_getElem s.heap idx j
                  { j with status := JobStatus.cancelled }
                  (fun x => x.status == JobStatus.running) hh
                have hj1 : ((j.status == JobStatus.running) : Bool) = false := by
                  simp [hr]
                have hj2 : (({ j with status := JobStatus.cancelled } : Job).status
                    == JobStatus.running) = false := by simp
                simp only [hj1, hj2, Bool.false_eq_true, if_false] at hcnt
                show (s.heap.set idx _).countP _ + s.tasks.countP _ ≤
                  s.runningDict.length
                have := h.countBound
                omega
            · rw [if_neg hq]
              dsimp only
              exact h

end CreativeStudio

namespace CreativeStudio

theorem objId_some (s : QState) (i : Nat) (a : String)
    (h : objId s i = some a) : ∃ j, s.heap[i]? = some j ∧ j.id = a := by
  unfold objId at h
  cases hh : s.heap[i]? with
  | none => rw [hh] at h; simp at h
  | some j =>
      rw [hh] at h
      simp only [Option.map_some', Option.some.injEq] at h
      exact ⟨j, rfl, h⟩

theorem getElem?_append_of_some {α : Type} (l l' : List α) (i : Nat) (x : α)
    (h : l[i]? = some x) : (l ++ l')[i]? = some x := by
  have hlt : i < l.length := List.getElem?_eq_some_iff.1 h |>.1
  rw [List.getElem?_append_left hlt]
  exact h

theorem getElem?_concat_cases {α : Type} (l : List α) (a : α) (i : Nat)
    (x : α) (h : (l ++ [a])[i]? = some x) :
    l[i]? = some x ∨ (i = l.length ∧ x = a) := by
  by_cases hi : i < l.length
  · rw [List.getElem?_append_left hi] at h
    exact Or.inl h
  · right
    have hle : l.length ≤ i := Nat.le_of_not_lt hi
    rw [List.getElem?_append_right hle] at h
    cases hd : i - l.length with
    | zero =>
        rw [hd] at h
        simp only [List.getElem?_cons_zero, Option.some.injEq] at h
        exact ⟨by omega, h.symm⟩
    | succ n =>
        rw [hd] at h
        simp at h

theorem key_not_mem_of_dictGet_none {α : Type} (m : List (String × α))
    (k : String) (h : dictGet m k = none) : k ∉ m.map Prod.fst := by
  induction m with
  | nil => simp
  | cons p m ih =>
      by_cases hp : p.1 = k
      · simp [dictGet, hp] at h
      · simp only [dictGet, hp, if_neg] at h
        simp only [List.map_cons, List.mem_cons]
        push_neg
        exact ⟨fun hh => hp hh.symm, ih h⟩

theorem mem_dictSet {α : Type} (m : List (String × α)) (k : String) (v : α)
    (q : String × α) (h : q ∈ dictSet m k v) : q ∈ m ∨ q = (k, v) := by
  induction m with
  | nil =>
      simp only [dictSet, List.mem_singleton] at h
      exact Or.inr h
  | cons p m ih =>
      by_cases hp : p.1 = k
      · simp only [dictSet, hp, if_pos, List.mem_cons] at h
        rcases h with h | h
        · exact Or.inr h
        · exact Or.inl (List.mem_cons_of_mem _ h)
      · simp only [dictSet, hp, if_neg, Bool.false_eq_true, not_false_iff,
          List.mem_cons] at h
        rcases h with h | h
        · exact Or.inl (by simp [h])
        · rcases ih h with h2 | h2
          · exact Or.inl (List.mem_cons_of_mem _ h2)
          · exact Or.inr h2

theorem isSome_dictGet_set {α : Type} (m : List (String × α)) (k a : String)
    (v : α) (h : a = k ∨ (dictGet m a).isSome = true) :
    (dictGet (dictSet m k v) a).isSome = true := by
  by_cases ha : a = k
  · subst ha
    rw [dictGet_set_self]
    rfl
  · rw [dictGet_set_ne m k a v ha]
    rcases h with h | h
    · exact absurd h ha
    · exact h

/-- `submit_job` with a fresh id preserves the queue invariant. -/
theorem inv_submit (s : QState) (id : String) (wf : Workflow) (h : Inv s)
    (hf : dictGet s.jobs id = none) : Inv (submitJob s id wf).1 := by
  have hfreshHeap : ∀ (i : Nat) (j : Job), s.heap[i]? = some j → j.id ≠ id := by
    intro i j hij hcontra
    have := h.heapIdsReg i j hij
    rw [hcontra, hf] at this
    simp at this
  constructor
  · -- capBound
    exact h.capBound
  · -- runningOwned
    intro i j' hij hrun
    rcases getElem?_concat_cases s.heap (newJob id wf s.now) i j' hij with
      hold | ⟨hi, hx⟩
    · exact h.runningOwned i j' hold hrun
    · rw [hx] at hrun
      exact JobStatus.noConfusion hrun
  · -- objsDistinct
    exact h.objsDistinct
  · -- taskRegistered
    intro p hp
    obtain ⟨a, ha, hd2⟩ := h.taskRegistered p hp
    obtain ⟨j, hj2, hjid⟩ := objId_some s p.2.obj a ha
    refine ⟨a, ?_, hd2⟩
    show ((s.heap ++ [newJob id wf s.now])[p.2.obj]?).map Job.id = some a
    rw [getElem?_append_of_some s.heap _ p.2.obj j hj2]
    simp [hjid]
  · -- tidsNodup
    exact h.tidsNodup
  · -- tidsLt
    exact h.tidsLt
  · -- registryWF
    intro q hq
    rcases mem_dictSet s.jobs id s.heap.length q hq with hold | hnew
    · have hwf := h.registryWF q hold
      obtain ⟨j, hj2, hjid⟩ := objId_some s q.2 q.1 hwf
      show ((s.heap ++ [newJob id wf s.now])[q.2]?).map Job.id = some q.1
      rw [getElem?_append_of_some s.heap _ q.2 j hj2]
      simp [hjid]
    · subst hnew
      show ((s.heap ++ [newJob id wf s.now])[s.heap.length]?).map Job.id = some id
      rw [List.getElem?_concat_length]
      simp [newJob]
  · -- fifoReg
    intro a ha
    rcases List.mem_append.1 ha with hold | hnew
    · exact isSome_dictGet_set s.jobs id a s.heap.length
        (Or.inr (h.fifoReg a hold))
    · simp only [List.mem_singleton] at hnew
      exact isSome_dictGet_set s.jobs id a s.heap.length (Or.inl hnew)
  · -- fifoNodup
    show (s.fifo ++ [id]).Nodup
    rw [List.nodup_append]
    refine ⟨h.fifoNodup, List.nodup_singleton id, ?_⟩
    intro a ha hmem
    simp only [List.mem_singleton] at hmem
    subst hmem
    have := h.fifoReg a ha
    rw [hf] at this
    simp at this
  · -- taskIdsNotQueued
    intro p hp a hoa
    obtain ⟨a', ha', _⟩ := h.taskRegistered p hp
    obtain ⟨j, hj2, hjid⟩ := objId_some s p.2.obj a' ha'
    have hoa' : objId s p.2.obj = some a := by
      have : ((s.heap ++ [newJob id wf s.now])[p.2.obj]?).map Job.id = some a := hoa
      rw [getElem?_append_of_some s.heap _ p.2.obj j hj2] at this
      show (s.heap[p.2.obj]?).map Job.id = some a
      rw [hj2]
      exact this
    intro hmem
    rcases List.mem_append.1 hmem with hold | hnew
    · exact h.taskIdsNotQueued p hp a hoa' hold
    · simp only [List.mem_singleton] at hnew
      subst hnew
      obtain ⟨j', hj2', hjid'⟩ := objId_some s p.2.obj a hoa'
      exact hfreshHeap p.2.obj j' hj2' hjid'
  · -- dictBacked
    intro e he
    obtain ⟨p, hp, hpe, hoe⟩ := h.dictBacked e he
    obtain ⟨j, hj2, hjid⟩ := objId_some s p.2.obj e.1 hoe
    refine ⟨p, hp, hpe, ?_⟩
    show ((s.heap ++ [newJob id wf s.now])[p.2.obj]?).map Job.id = some e.1
    rw [getElem?_append_of_some s.heap _ p.2.obj j hj2]
    simp [hjid]
  · -- dictKeysNodup
    exact h.dictKeysNodup
  · -- heapIdsReg
    intro i j' hij
    rcases getElem?_concat_cases s.heap (newJob id wf s.now) i j' hij with
      hold | ⟨hi, hx⟩
    · exact isSome_dictGet_set s.jobs id j'.id s.heap.length
        (Or.inr (h.heapIdsReg i j' hold))
    · refine isSome_dictGet_set s.jobs id j'.id s.heap.length (Or.inl ?_)
      rw [hx]
      rfl
  · -- heapIdsNodup
    intro i j1 i' j1' hi1 hi1' hideq
    rcases getElem?_concat_cases s.heap (newJob id wf s.now) i j1 hi1 with
      hold | ⟨hi, hx⟩ <;>
      rcases getElem?_concat_cases s.heap (newJob id wf s.now) i' j1' hi1' with
        hold' | ⟨hi', hx'⟩
    · exact h.heapIdsNodup i j1 i' j1' hold hold' hideq
    · exfalso
      apply hfreshHeap i j1 hold
      rw [hideq, hx']
      rfl
    · exfalso
      apply hfreshHeap i' j1' hold'
      rw [← hideq, hx]
      rfl
    · rw [hi, hi']
  · -- execRunning
    intro p hp hex j' hj'
    obtain ⟨a, ha, _⟩ := h.taskRegistered p hp
    obtain ⟨j, hj2, _⟩ := objId_some s p.2.obj a ha
    have happ : ((s.heap ++ [newJob id wf s.now])[p.2.obj]?) = some j :=
      getElem?_append_of_some s.heap _ p.2.obj j hj2
    have hj'2 : ((s.heap ++ [newJob id wf s.now])[p.2.obj]?) = some j' := hj'
    rw [happ] at hj'2
    cases hj'2
    exact h.execRunning p hp hex j' hj2
  · -- countBound
    show (s.heap ++ [newJob id wf s.now]).countP _ + s.tasks.countP _ ≤
      s.runningDict.length
    rw [List.countP_append]
    have : List.countP (fun j => j.status == JobStatus.running)
        [newJob id wf s.now] = 0 := by simp [newJob]
    rw [this]
    have := h.countBound
    omega

end CreativeStudio

namespace CreativeStudio

theorem dictSet_append_of_none {α : Type} (m : List (String × α))
    (k : String) (v : α) (h : dictGet m k = none) :
    dictSet m k v = m ++ [(k, v)] := by
  induction m with
  | nil => rfl
  | cons p m ih =>
      by_cases hp : p.1 = k
      · simp [dictGet, hp] at h
      · simp only [dictGet, hp, if_neg] at h
        simp only [dictSet, hp, if_neg, Bool.false_eq_true, not_false_iff,
          List.cons_append, List.cons.injEq, true_and]
        exact ih h

/-- A popped-and-dispatched worker iteration preserves the queue invariant. -/
theorem inv_worker (s : QState) (h : Inv s) : Inv (workerStep s) := by
  unfold workerStep
  cases hf : s.fifo with
  | nil => exact h
  | cons jid rest =>
      dsimp only
      cases hj : dictGet s.jobs jid with
      | none =>
          dsimp only
          constructor
          · exact h.capBound
          · exact h.runningOwned
          · exact h.objsDistinct
          · exact h.taskRegistered
          · exact h.tidsNodup
          · exact h.tidsLt
          · exact h.registryWF
          · intro a ha
            exact h.fifoReg a (hf ▸ List.mem_cons_of_mem jid ha)
          · have := h.fifoNodup
            rw [hf] at this
            exact this.of_cons
          · intro p hp a hoa
            intro hmem
            exact h.taskIdsNotQueued p hp a hoa
              (hf ▸ List.mem_cons_of_mem jid hmem)
          · exact h.dictBacked
          · exact h.dictKeysNodup
          · exact h.heapIdsReg
          · exact h.heapIdsNodup
          · exact h.execRunning
          · exact h.countBound
      | some idx =>
          dsimp only
          by_cases hcap : s.runningDict.length < s.maxConcurrent
          · rw [if_pos hcap]
            have hIdHead : jid ∈ s.fifo := by rw [hf]; exact List.mem_cons_self jid rest
            have hWF : objId s idx = some jid :=
              h.registryWF (jid, idx) (dictGet_mem s.jobs jid idx hj)
            have hDictFresh : dictGet s.runningDict jid = none := by
              cases hd : dictGet s.runningDict jid with
              | none => rfl
              | some tid' =>
                  exfalso
                  obtain ⟨r, hr, _, hro⟩ :=
                    h.dictBacked (jid, tid') (dictGet_mem s.runningDict jid tid' hd)
                  exact h.taskIdsNotQueued r hr jid hro hIdHead
            have hSetApp : dictSet s.runningDict jid s.nextTid
                = s.runningDict ++ [(jid, s.nextTid)] :=
              dictSet_append_of_none s.runningDict jid s.nextTid hDictFresh
            have hOldNotId : ∀ p ∈ s.tasks, ∀ a, objId s p.2.obj = some a →
                a ≠ jid := by
              intro p hp a hoa hcontra
              exact h.taskIdsNotQueued p hp a hoa (hcontra ▸ hIdHead)
            have hNodupF := h.fifoNodup
            rw [hf, List.nodup_cons] at hNodupF
            constructor
            · -- capBound
              show (dictSet s.runningDict jid s.nextTid).length ≤ s.maxConcurrent
              rw [hSetApp, List.length_append]
              simp only [List.length_singleton]
              omega
            · -- runningOwned
              intro i j' hij hrun
              obtain ⟨p, hp, hobj, hex⟩ := h.runningOwned i j' hij hrun
              exact ⟨p, List.mem_append_left _ hp, hobj, hex⟩
            · -- objsDistinct
              show (s.tasks ++ [(s.nextTid, ({ obj := idx } : TaskState))]).Pairwise _
              rw [List.pairwise_append]
              refine ⟨h.objsDistinct, List.pairwise_singleton _ _, ?_⟩
              intro p hp q hq
              simp only [List.mem_singleton] at hq
              subst hq
              intro hcontra
              obtain ⟨a, ha, _⟩ := h.taskRegistered p hp
              have : objId s p.2.obj = some jid := by
                show objId s p.2.obj = some jid
                have : p.2.obj = idx := hcontra
                rw [this]
                exact hWF
              exact hOldNotId p hp jid this rfl
            · -- taskRegistered
              intro p hp
              rcases List.mem_append.1 hp with hold | hnew
              · obtain ⟨a, ha, hd2⟩ := h.taskRegistered p hold
                refine ⟨a, ha, ?_⟩
                rw [dictGet_set_ne s.runningDict jid a s.nextTid
                  (hOldNotId p hold a ha)]
                exact hd2
              · simp only [List.mem_singleton] at hnew
                subst hnew
                refine ⟨jid, hWF, ?_⟩
                exact dictGet_set_self s.runningDict jid s.nextTid
            · -- tidsNodup
              show ((s.tasks ++ [(s.nextTid, ({ obj := idx } : TaskState))]).map Prod.fst).Nodup
              rw [List.map_append]
              rw [List.nodup_append]
              refine ⟨h.tidsNodup, by simp, ?_⟩
              intro a ha hmem
              simp only [List.map_cons, List.map_nil, List.mem_singleton] at hmem
              subst hmem
              rcases List.mem_map.1 ha with ⟨p, hp, hpa⟩
              have := h.tidsLt p hp
              omega
            · -- tidsLt
              intro p hp
              rcases List.mem_append.1 hp with hold | hnew
              · have := h.tidsLt p hold
                show p.1 < s.nextTid + 1
                omega
              · simp only [List.mem_singleton] at hnew
                subst hnew
                show s.nextTid < s.nextTid + 1
                omega
            · exact h.registryWF
            · intro a ha
              exact h.fifoReg a (hf ▸ List.mem_cons_of_mem jid ha)
            · exact hNodupF.2
            · -- taskIdsNotQueued
              intro p hp a hoa
              rcases List.mem_append.1 hp with hold | hnew
              · intro hmem
                exact h.taskIdsNotQueued p hold a hoa
                  (hf ▸ List.mem_cons_of_mem jid hmem)
              · simp only [List.mem_singleton] at hnew
                subst hnew
                have : objId s idx = some a := hoa
                rw [hWF] at this
                cases this
                exact hNodupF.1
            · -- dictBacked
              intro e he
              have he2 : e ∈ s.runningDict ++ [(jid, s.nextTid)] := by
                rw [← hSetApp]; exact he
              rcases List.mem_append.1 he2 with hold | hnew
              · obtain ⟨p, hp, hpe, hpo⟩ := h.dictBacked e hold
                exact ⟨p, List.mem_append_left _ hp, hpe, hpo⟩
              · simp only [List.mem_singleton] at hnew
                subst hnew
                refine ⟨(s.nextTid, { obj := idx }), List.mem_append_right _ ?_,
                  rfl, hWF⟩
                exact List.mem_singleton_self _
            · -- dictKeysNodup
              show ((dictSet s.runningDict jid s.nextTid).map Prod.fst).Nodup
              rw [hSetApp, List.map_append, List.nodup_append]
              refine ⟨h.dictKeysNodup, by simp, ?_⟩
              intro a ha hmem
              simp only [List.map_cons, List.map_nil, List.mem_singleton] at hmem
              rw [hmem] at ha
              exact key_not_mem_of_dictGet_none s.runningDict jid hDictFresh ha
            · exact h.heapIdsReg
            · exact h.heapIdsNodup
            · -- execRunning
              intro p hp hex j' hj'
              rcases List.mem_append.1 hp with hold | hnew
              · exact h.execRunning p hold hex j' hj'
              · simp only [List.mem_singleton] at hnew
                subst hnew
                simp [isExecuting] at hex
            · -- countBound
              show s.heap.countP _ +
                (s.tasks ++ [(s.nextTid, ({ obj := idx } : TaskState))]).countP _ ≤
                (dictSet s.runningDict jid s.nextTid).length
              rw [hSetApp, List.length_append, List.countP_append]
              have hone : List.countP (fun p => isCreated p.2.phase)
                  [((s.nextTid : Nat), ({ obj := idx } : TaskState))] = 1 := by
                simp [isCreated]
              rw [hone]
              have := h.countBound
              simp only [List.length_singleton]
              omega
          · rw [if_neg hcap]
            exact h

end CreativeStudio

namespace CreativeStudio

theorem taskGet_some (s : QState) (tid : Nat) (ts : TaskState)
    (h : taskGet s tid = some ts) : (tid, ts) ∈ s.tasks := by
  unfold taskGet at h
  cases hf : s.tasks.find? (fun p => p.1 == tid) with
  | none => rw [hf] at h; simp at h
  | some p =>
      rw [hf] at h
      simp only [Option.map_some', Option.some.injEq] at h
      have hmem := List.mem_of_find?_eq_some hf
      have hpred := List.find?_some hf
      simp only [beq_iff_eq] at hpred
      have : p = (tid, ts) := by
        obtain ⟨p1, p2⟩ := p
        simp only at hpred h
        rw [hpred, h]
      rw [← this]
      exact hmem

theorem updateTask_obj_of_mem (tid : Nat) (ts ts' : TaskState)
    (l : List (Nat × TaskState)) (hn : (l.map Prod.fst).Nodup)
    (hmem : (tid, ts) ∈ l) (hobj : ts'.obj = ts.obj) :
    ∀ p ∈ l, ((fun p => if p.1 = tid then (p.1, ts') else p) p).2.obj
      = p.2.obj := by
  intro p hp
  by_cases hpt : p.1 = tid
  · have : p = (tid, ts) := eq_of_mem_nodup_fst l hn p (tid, ts) hp hmem hpt
    simp only [hpt, if_pos]
    rw [this, hobj]
  · simp only [hpt, if_neg, Bool.false_eq_true, not_false_iff]

/-- The first line of `_execute_job` (job set Running) preserves the
invariant. -/
theorem inv_begin (s : QState) (tid : Nat) (h : Inv s) :
    Inv (beginTaskStep s tid) := by
  unfold beginTaskStep
  cases ht : taskGet s tid with
  | none => exact h
  | some ts =>
      dsimp only
      by_cases hp : ts.phase = TaskPhase.created
      · rw [if_pos hp]
        cases hh : s.heap[ts.obj]? with
        | none => exact h
        | some j =>
            dsimp only
            have htask : (tid, ts) ∈ s.tasks := taskGet_some s tid ts ht
            have hcreated : isCreated ts.phase = true := by rw [hp]; rfl
            have hsym : Symmetric
                (fun (p q : Nat × TaskState) => p.2.obj ≠ q.2.obj) :=
              fun _ _ hab => Ne.symm hab
            have hNotRun : ¬j.status = JobStatus.running := by
              intro hrun
              obtain ⟨q, hq, hqobj, hqex⟩ := h.runningOwned ts.obj j hh hrun
              by_cases hqe : q = (tid, ts)
              · rw [hqe] at hqex
                rw [hp] at hqex
                simp [isExecuting] at hqex
              · have := h.objsDistinct.forall hsym hq htask hqe
                rw [hqobj] at this
                exact this rfl
            set nts : TaskState := { ts with phase := TaskPhase.executing 0 } with hnts
            set nj : Job :=
              { j with status := JobStatus.running, startedAt := some s.now }
              with hnj
            have hid : nj.id = j.id := rfl
            have hidset := heapId_set s.heap ts.obj j nj hh hid
            constructor
            · exact h.capBound
            · -- runningOwned
              intro i j2 hij hrun
              by_cases hi : ts.obj = i
              · subst hi
                rcases updateTask_mem tid nts s.tasks (tid, ts) htask with
                  ⟨_, hmem⟩ | ⟨hne, _⟩
                · exact ⟨(tid, nts), hmem, rfl, rfl⟩
                · exact absurd rfl hne
              · rw [List.getElem?_set_ne hi] at hij
                obtain ⟨q, hq, hqobj, hqex⟩ := h.runningOwned i j2 hij hrun
                rcases updateTask_mem tid nts s.tasks q hq with
                  ⟨hqt, hmem⟩ | ⟨hne, hmem⟩
                · have : q = (tid, ts) :=
                    eq_of_mem_nodup_fst s.tasks h.tidsNodup q (tid, ts) hq htask hqt
                  rw [this] at hqex
                  rw [hp] at hqex
                  simp [isExecuting] at hqex
                · exact ⟨q, hmem, hqobj, hqex⟩
            · -- objsDistinct
              show (updateTask tid nts s.tasks).Pairwise _
              unfold updateTask
              rw [List.pairwise_map]
              refine List.Pairwise.imp_of_mem ?_ h.objsDistinct
              intro a b ha hb hab
              rw [updateTask_obj_of_mem tid ts nts s.tasks h.tidsNodup htask rfl
                a ha,
                updateTask_obj_of_mem tid ts nts s.tasks h.tidsNodup htask rfl
                b hb]
              exact hab
            · -- taskRegistered
              intro p' hp'
              obtain ⟨q, hq, hfst, hcase⟩ := mem_updateTask tid nts s.tasks p' hp'
              rcases hcase with hsame | ⟨hpt, hpts⟩
              · obtain ⟨a, ha, hd2⟩ := h.taskRegistered q hq
                refine ⟨a, ?_, by rw [hfst]; exact hd2⟩
                show (((s.heap.set ts.obj nj))[p'.2.obj]?).map Job.id = some a
                rw [hidset p'.2.obj, hsame]
                exact ha
              · have hq2 : q = (tid, ts) :=
                  eq_of_mem_nodup_fst s.tasks h.tidsNodup q (tid, ts) hq htask
                    (by rw [← hfst]; exact hpt)
                obtain ⟨a, ha, hd2⟩ := h.taskRegistered (tid, ts) htask
                refine ⟨a, ?_, by rw [hfst, hq2]; exact hd2⟩
                show (((s.heap.set ts.obj nj))[p'.2.obj]?).map Job.id = some a
                rw [hidset p'.2.obj, hpts]
                exact ha
            · -- tidsNodup
              show ((updateTask tid nts s.tasks).map Prod.fst).Nodup
              rw [updateTask_fst]
              exact h.tidsNodup
            · -- tidsLt
              intro p' hp'
              obtain ⟨q, hq, hfst, _⟩ := mem_updateTask tid nts s.tasks p' hp'
              rw [hfst]
              exact h.tidsLt q hq
            · -- registryWF
              intro q hq
              have := h.registryWF q hq
              show ((s.heap.set ts.obj nj)[q.2]?).map Job.id = some q.1
              rw [hidset q.2]
              exact this
            · exact h.fifoReg
            · exact h.fifoNodup
            · -- taskIdsNotQueued
              intro p' hp' a hoa
              obtain ⟨q, hq, hfst, hcase⟩ := mem_updateTask tid nts s.tasks p' hp'
              have hobjeq : p'.2.obj = q.2.obj := by
                rcases hcase with hsame | ⟨hpt, hpts⟩
                · rw [hsame]
                · have hq2 : q = (tid, ts) :=
                    eq_of_mem_nodup_fst s.tasks h.tidsNodup q (tid, ts) hq htask
                      (by rw [← hfst]; exact hpt)
                  rw [hpts, hq2]
              have hoa' : objId s q.2.obj = some a := by
                have : ((s.heap.set ts.obj nj)[p'.2.obj]?).map Job.id = some a := hoa
                rw [hidset p'.2.obj, hobjeq] at this
                exact this
              exact h.taskIdsNotQueued q hq a hoa'
            · -- dictBacked
              intro e he
              obtain ⟨p, hpm, hpe, hpo⟩ := h.dictBacked e he
              rcases updateTask_mem tid nts s.tasks p hpm with
                ⟨hpt, hmem⟩ | ⟨hne, hmem⟩
              · have hp2 : p = (tid, ts) :=
                  eq_of_mem_nodup_fst s.tasks h.tidsNodup p (tid, ts) hpm htask hpt
                refine ⟨(p.1, nts), hmem, by rw [← hpe], ?_⟩
                show ((s.heap.set ts.obj nj)[nts.obj]?).map Job.id = some e.1
                rw [hidset nts.obj]
                have : nts.obj = p.2.obj := by rw [hp2]
                rw [this]
                exact hpo
              · refine ⟨p, hmem, hpe, ?_⟩
                show ((s.heap.set ts.obj nj)[p.2.obj]?).map Job.id = some e.1
                rw [hidset p.2.obj]
                exact hpo
            · exact h.dictKeysNodup
            · -- heapIdsReg
              intro i j2 hij
              by_cases hi : ts.obj = i
              · subst hi
                have hlt : ts.obj < s.heap.length :=
                  List.getElem?_eq_some_iff.1 hh |>.1
                rw [List.getElem?_set_self (by simpa using hlt)] at hij
                cases hij
                exact h.heapIdsReg ts.obj j hh
              · rw [List.getElem?_set_ne hi] at hij
                exact h.heapIdsReg i j2 hij
            · -- heapIdsNodup
              intro i j1 i' j1' hi1 hi1' hideq
              have hlt : ts.obj < s.heap.length :=
                List.getElem?_eq_some_iff.1 hh |>.1
              by_cases hi : ts.obj = i <;> by_cases hi' : ts.obj = i'
              · rw [← hi, ← hi']
              · subst hi
                rw [List.getElem?_set_self (by simpa using hlt)] at hi1
                rw [List.getElem?_set_ne hi'] at hi1'
                cases hi1
                exact h.heapIdsNodup ts.obj j i' j1' hh hi1' hideq
              · subst hi'
                rw [List.getElem?_set_self (by simpa using hlt)] at hi1'
                rw [List.getElem?_set_ne hi] at hi1
                cases hi1'
                exact h.heapIdsNodup i j1 ts.obj j hi1 hh hideq
              · rw [List.getElem?_set_ne hi] at hi1
                rw [List.getElem?_set_ne hi'] at hi1'
                exact h.heapIdsNodup i j1 i' j1' hi1 hi1' hideq
            · -- execRunning
              intro p' hp' hex j2 hj2
              obtain ⟨q, hq, hfst, hcase⟩ := mem_updateTask tid nts s.tasks p' hp'
              rcases hcase with hsame | ⟨hpt, hpts⟩
              · have hqex : isExecuting q.2.phase = true := by
                  rw [← hsame]; exact hex
                have hqne : q.2.obj ≠ ts.obj := by
                  intro hcontra
                  by_cases hqe : q = (tid, ts)
                  · rw [hqe] at hqex
                    rw [hp] at hqex
                    simp [isExecuting] at hqex
                  · have := h.objsDistinct.forall hsym hq htask hqe
                    rw [hcontra] at this
                    exact this rfl
                have hj2' : s.heap[q.2.obj]? = some j2 := by
                  have h0 : (s.heap.set ts.obj nj)[q.2.obj]? = some j2 := by
                    rw [← hsame]
                    exact hj2
                  rw [List.getElem?_set_ne (fun hh2 => hqne hh2.symm)] at h0
                  exact h0
                exact h.execRunning q hq hqex j2 hj2'
              · have hlt : ts.obj < s.heap.length :=
                  List.getElem?_eq_some_iff.1 hh |>.1
                have : (s.heap.set ts.obj nj)[ts.obj]? = some nj :=
                  List.getElem?_set_self (by simpa using hlt)
                have hj2' : (s.heap.set ts.obj nj)[p'.2.obj]? = some j2 := hj2
                rw [hpts] at hj2'
                have hobj : nts.obj = ts.obj := rfl
                rw [hobj, this] at hj2'
                cases hj2'
                rfl
            · -- countBound
              have hcnt := countP_set_of_getElem s.heap ts.obj j nj
                (fun x => x.status == JobStatus.running) hh
              have hcnt2 := countP_updateTask_target tid nts s.tasks
                (fun p => isCreated p.2.phase) h.tidsNodup (tid, ts) htask rfl
                hcreated (by rfl)
              have hb := h.countBound
              have hjf : ((j.status == JobStatus.running) : Bool) = false := by
                simp [hNotRun]
              have hjt : ((nj.status == JobStatus.running) : Bool) = true := by
                rfl
              simp only [hjf, hjt, Bool.false_eq_true, if_false, if_true] at hcnt
              show (s.heap.set ts.obj nj).countP _ +
                (updateTask tid nts s.tasks).countP _ ≤ s.runningDict.length
              omega
      · rw [if_neg hp]
        exact h

end CreativeStudio

namespace CreativeStudio

theorem countP_filter_ne_key (l : List (Nat × TaskState)) (tid : Nat)
    (ts : TaskState) (hn : (l.map Prod.fst).Nodup) (hmem : (tid, ts) ∈ l)
    (hnc : isCreated ts.phase = false) :
    (l.filter (fun p => p.1 != tid)).countP (fun p => isCreated p.2.phase)
      = l.countP (fun p => isCreated p.2.phase) := by
  induction l with
  | nil => rfl
  | cons r l ih =>
      simp only [List.map_cons, List.nodup_cons] at hn
      by_cases hr : r.1 = tid
      · have hrts : r = (tid, ts) := by
          rcases List.mem_cons.1 hmem with hm | hm
          · exact hm.symm
          · exfalso
            apply hn.1
            rw [hr]
            exact List.mem_map_of_mem Prod.fst hm
        have hb : (r.1 != tid) = false := by simp [hr]
        rw [List.filter_cons, hb]
        simp only [Bool.false_eq_true, if_false]
        have hrest : l.filter (fun p => p.1 != tid) = l := by
          apply List.filter_eq_self.2
          intro q hq
          simp only [bne_iff_ne, ne_eq]
          intro hqt
          apply hn.1
          rw [hr, ← hqt]
          exact List.mem_map_of_mem Prod.fst hq
        rw [hrest, List.countP_cons]
        have : isCreated r.2.phase = false := by rw [hrts]; exact hnc
        simp [this]
      · have hb : (r.1 != tid) = true := by simp [hr]
        rw [List.filter_cons, hb]
        simp only [if_true]
        have hmem' : (tid, ts) ∈ l := by
          rcases List.mem_cons.1 hmem with hm | hm
          · exfalso; apply hr; rw [← hm]
          · exact hm
        rw [List.countP_cons, List.countP_cons, ih hn.2 hmem']

/-- The `finally` exit path of `_execute_job` (terminal job written, task
deregistered and ended) preserves the queue invariant. -/
theorem inv_finalize (s : QState) (tid : Nat) (ts : TaskState) (j j' : Job)
    (log : List (String × CapCall)) (h : Inv s)
    (htask : (tid, ts) ∈ s.tasks) (hex : isExecuting ts.phase = true)
    (hh : s.heap[ts.obj]? = some j) (hid : j'.id = j.id)
    (hterm : ¬j'.status = JobStatus.running) :
    Inv (finalizeTask s tid ts.obj j' log) := by
  have hsym : Symmetric
      (fun (p q : Nat × TaskState) => p.2.obj ≠ q.2.obj) :=
    fun _ _ hab => Ne.symm hab
  have hrun_old : j.status = JobStatus.running :=
    h.execRunning (tid, ts) htask hex j hh
  have hoid : objId s ts.obj = some j.id := by
    show (s.heap[ts.obj]?).map Job.id = some j.id
    rw [hh]
    rfl
  have hdict : dictGet s.runningDict j.id = some tid := by
    obtain ⟨a, ha, hd2⟩ := h.taskRegistered (tid, ts) htask
    have : a = j.id := by
      rw [hoid] at ha
      cases ha
      rfl
    rw [← this]
    exact hd2
  have hidset := heapId_set s.heap ts.obj j j' hh hid
  have hFlt : ∀ p, p ∈ s.tasks.filter (fun p => p.1 != tid) →
      p ∈ s.tasks ∧ p.1 ≠ tid := by
    intro p hp
    have := List.mem_filter.1 hp
    exact ⟨this.1, by simpa using this.2⟩
  have hKeep : ∀ p ∈ s.tasks, p.1 ≠ tid →
      p ∈ s.tasks.filter (fun p => p.1 != tid) := by
    intro p hp hne
    exact List.mem_filter.2 ⟨hp, by simpa using hne⟩
  have hTidEq : ∀ p ∈ s.tasks, p.1 = tid → p = (tid, ts) := by
    intro p hp hpt
    exact eq_of_mem_nodup_fst s.tasks h.tidsNodup p (tid, ts) hp htask hpt
  unfold finalizeTask
  rw [hid]
  constructor
  · -- capBound
    calc (dictDel s.runningDict j.id).length
        ≤ s.runningDict.length := List.length_filter_le _ _
      _ ≤ s.maxConcurrent := h.capBound
  · -- runningOwned
    intro i j2 hij hrun2
    by_cases hi : ts.obj = i
    · subst hi
      have hlt : ts.obj < s.heap.length := List.getElem?_eq_some_iff.1 hh |>.1
      rw [List.getElem?_set_self (by simpa using hlt)] at hij
      cases hij
      exact absurd hrun2 hterm
    · rw [List.getElem?_set_ne hi] at hij
      obtain ⟨q, hq, hqobj, hqex⟩ := h.runningOwned i j2 hij hrun2
      have hqne : q.1 ≠ tid := by
        intro hqt
        have := hTidEq q hq hqt
        rw [this] at hqobj
        exact hi hqobj
      exact ⟨q, hKeep q hq hqne, hqobj, hqex⟩
  · -- objsDistinct
    exact h.objsDistinct.sublist (List.filter_sublist s.tasks)
  · -- taskRegistered
    intro p hp
    obtain ⟨hpm, hpt⟩ := hFlt p hp
    obtain ⟨a, ha, hd2⟩ := h.taskRegistered p hpm
    have hane : a ≠ j.id := by
      intro hcontra
      rw [hcontra, hdict] at hd2
      cases hd2
      exact hpt rfl
    refine ⟨a, ?_, ?_⟩
    · show ((s.heap.set ts.obj j')[p.2.obj]?).map Job.id = some a
      rw [hidset p.2.obj]
      exact ha
    · rw [dictGet_del_ne s.runningDict j.id a hane]
      exact hd2
  · -- tidsNodup
    exact ((List.filter_sublist s.tasks).map Prod.fst).nodup h.tidsNodup
  · -- tidsLt
    intro p hp
    exact h.tidsLt p (hFlt p hp).1
  · -- registryWF
    intro q hq
    have := h.registryWF q hq
    show ((s.heap.set ts.obj j')[q.2]?).map Job.id = some q.1
    rw [hidset q.2]
    exact this
  · exact h.fifoReg
  · exact h.fifoNodup
  · -- taskIdsNotQueued
    intro p hp a hoa
    obtain ⟨hpm, _⟩ := hFlt p hp
    have hoa' : objId s p.2.obj = some a := by
      have : ((s.heap.set ts.obj j')[p.2.obj]?).map Job.id = some a := hoa
      rw [hidset p.2.obj] at this
      exact this
    exact h.taskIdsNotQueued p hpm a hoa'
  · -- dictBacked
    intro e he
    have hmem := List.mem_filter.1 he
    have hene : e.1 ≠ j.id := by simpa using hmem.2
    obtain ⟨p, hpm, hpe, hpo⟩ := h.dictBacked e hmem.1
    have hpne : p.1 ≠ tid := by
      intro hpt
      have hpts := hTidEq p hpm hpt
      rw [hpts] at hpo
      rw [hoid] at hpo
      injection hpo with hpo2
      exact hene hpo2.symm
    refine ⟨p, hKeep p hpm hpne, hpe, ?_⟩
    show ((s.heap.set ts.obj j')[p.2.obj]?).map Job.id = some e.1
    rw [hidset p.2.obj]
    exact hpo
  · -- dictKeysNodup
    exact dictKeys_del_nodup s.runningDict j.id h.dictKeysNodup
  · -- heapIdsReg
    intro i j2 hij
    by_cases hi : ts.obj = i
    · subst hi
      have hlt : ts.obj < s.heap.length := List.getElem?_eq_some_iff.1 hh |>.1
      rw [List.getElem?_set_self (by simpa using hlt)] at hij
      cases hij
      rw [hid]
      exact h.heapIdsReg ts.obj j hh
    · rw [List.getElem?_set_ne hi] at hij
      exact h.heapIdsReg i j2 hij
  · -- heapIdsNodup
    intro i j1 i' j1' hi1 hi1' hideq
    have hlt : ts.obj < s.heap.length := List.getElem?_eq_some_iff.1 hh |>.1
    by_cases hi : ts.obj = i <;> by_cases hi' : ts.obj = i'
    · rw [← hi, ← hi']
    · subst hi
      rw [List.getElem?_set_self (by simpa using hlt)] at hi1
      rw [List.getElem?_set_ne hi'] at hi1'
      cases hi1
      refine h.heapIdsNodup ts.obj j i' j1' hh hi1' ?_
      rw [hid] at hideq
      exact hideq
    · subst hi'
      rw [List.getElem?_set_self (by simpa using hlt)] at hi1'
      rw [List.getElem?_set_ne hi] at hi1
      cases hi1'
      refine h.heapIdsNodup i j1 ts.obj j hi1 hh ?_
      rw [hid] at hideq
      exact hideq
    · rw [List.getElem?_set_ne hi] at hi1
      rw [List.getElem?_set_ne hi'] at hi1'
      exact h.heapIdsNodup i j1 i' j1' hi1 hi1' hideq
  · -- execRunning
    intro p hp hpex j2 hj2
    obtain ⟨hpm, hpt⟩ := hFlt p hp
    have hpne : p.2.obj ≠ ts.obj := by
      intro hcontra
      have hne : p ≠ (tid, ts) := by
        intro hcontra2
        rw [hcontra2] at hpt
        exact hpt rfl
      have := h.objsDistinct.forall hsym hpm htask hne
      rw [hcontra] at this
      exact this rfl
    have hj2' : s.heap[p.2.obj]? = some j2 := by
      have h0 : (s.heap.set ts.obj j')[p.2.obj]? = some j2 := hj2
      rw [List.getElem?_set_ne (fun hh2 => hpne hh2.symm)] at h0
      exact h0
    exact h.execRunning p hpm hpex j2 hj2'
  · -- countBound
    have hcnt := countP_set_of_getElem s.heap ts.obj j j'
      (fun x => x.status == JobStatus.running) hh
    have hjt : ((j.status == JobStatus.running) : Bool) = true := by
      simp [hrun_old]
    have hjf : ((j'.status == JobStatus.running) : Bool) = false := by
      simp [hterm]
    simp only [hjt, hjf, Bool.false_eq_true, if_false, if_true] at hcnt
    have hcnt2 := countP_filter_ne_key s.tasks tid ts h.tidsNodup htask
      (by cases hph : ts.phase with
        | created => rw [hph] at hex; simp [isExecuting] at hex
        | executing k => rfl)
    have hdel := length_dictDel_of_mem s.runningDict j.id h.dictKeysNodup
      (by rw [hdict]; rfl)
    have hb := h.countBound
    show (s.heap.set ts.obj j').countP _ +
      (s.tasks.filter (fun p => p.1 != tid)).countP _ ≤
      (dictDel s.runningDict j.id).length
    omega

end CreativeStudio

namespace CreativeStudio

/-- Cancellation observed at a stage boundary preserves the invariant. -/
theorem inv_observe (s : QState) (tid : Nat) (h : Inv s) :
    Inv (observeCancelStep s tid) := by
  unfold observeCancelStep
  cases ht : taskGet s tid with
  | none => exact h
  | some ts =>
      dsimp only
      by_cases hc : (ts.cancelRequested && isExecuting ts.phase) = true
      · rw [if_pos hc]
        cases hh : s.heap[ts.obj]? with
        | none => exact h
        | some j =>
            dsimp only
            have hex : isExecuting ts.phase = true := by
              simp only [Bool.and_eq_true] at hc
              exact hc.2
            refine inv_finalize s tid ts j
              { j with status := JobStatus.cancelled, completedAt := some s.now }
              s.capLog h (taskGet_some s tid ts ht) hex hh rfl ?_
            intro hcon
            exact JobStatus.noConfusion hcon
      · rw [if_neg hc]
        exact h

/-- One pipeline-stage step of a task preserves the invariant. -/
theorem inv_stage (s : QState) (tid : Nat) (o : ExecOutcomes) (h : Inv s) :
    Inv (stageStep s tid o) := by
  unfold stageStep
  cases ht : taskGet s tid with
  | none => exact h
  | some ts =>
      dsimp only
      cases hph : ts.phase with
      | created => exact h
      | executing k =>
          dsimp only
          cases hh : s.heap[ts.obj]? with
          | none => exact h
          | some j =>
              dsimp only
              have htask : (tid, ts) ∈ s.tasks := taskGet_some s tid ts ht
              have hex : isExecuting ts.phase = true := by rw [hph]; rfl
              rcases hrs : runStage s.bucket k o j.workflowJson with ⟨w', rest⟩
              rcases hrest : rest with ⟨calls, err⟩
              dsimp only
              cases herr : err with
              | some e =>
                  dsimp only
                  refine inv_finalize s tid ts j _ _ h htask hex hh rfl ?_
                  intro hcon
                  exact JobStatus.noConfusion hcon
              | none =>
                  dsimp only
                  by_cases hk : k = 4
                  · rw [if_pos hk]
                    refine inv_finalize s tid ts j _ _ h htask hex hh rfl ?_
                    intro hcon
                    exact JobStatus.noConfusion hcon
                  · rw [if_neg hk]
                    have hsym : Symmetric
                        (fun (p q : Nat × TaskState) => p.2.obj ≠ q.2.obj) :=
                      fun _ _ hab => Ne.symm hab
                    set nts : TaskState := { ts with phase := TaskPhase.executing (k + 1) }
                      with hnts
                    set jW : Job := { j with workflowJson := w' } with hjW
                    have hid : jW.id = j.id := rfl
                    have hst : jW.status = j.status := rfl
                    have hidset := heapId_set s.heap ts.obj j jW hh hid
                    have hTidEq : ∀ p ∈ s.tasks, p.1 = tid → p = (tid, ts) := by
                      intro p hp hpt
                      exact eq_of_mem_nodup_fst s.tasks h.tidsNodup p (tid, ts)
                        hp htask hpt
                    have hlt : ts.obj < s.heap.length :=
                      List.getElem?_eq_some_iff.1 hh |>.1
                    constructor
                    · exact h.capBound
                    · -- runningOwned
                      intro i j2 hij hrun2
                      have hold : ∃ q ∈ s.tasks, q.2.obj = i ∧
                          isExecuting q.2.phase = true := by
                        by_cases hi : ts.obj = i
                        · subst hi
                          rw [List.getElem?_set_self (by simpa using hlt)] at hij
                          cases hij
                          exact h.runningOwned ts.obj j hh (by rw [← hst]; exact hrun2)
                        · rw [List.getElem?_set_ne hi] at hij
                          exact h.runningOwned i j2 hij hrun2
                      obtain ⟨q, hq, hqobj, hqex⟩ := hold
                      rcases updateTask_mem tid nts s.tasks q hq with
                        ⟨hqt, hmem⟩ | ⟨_, hmem⟩
                      · have hq2 := hTidEq q hq hqt
                        refine ⟨(q.1, nts), hmem, ?_, rfl⟩
                        show nts.obj = i
                        rw [← hqobj, hq2]
                      · exact ⟨q, hmem, hqobj, hqex⟩
                    · -- objsDistinct
                      show (updateTask tid nts s.tasks).Pairwise _
                      unfold updateTask
                      rw [List.pairwise_map]
                      refine List.Pairwise.imp_of_mem ?_ h.objsDistinct
                      intro a b ha hb hab
                      rw [updateTask_obj_of_mem tid ts nts s.tasks h.tidsNodup
                        htask rfl a ha,
                        updateTask_obj_of_mem tid ts nts s.tasks h.tidsNodup
                        htask rfl b hb]
                      exact hab
                    · -- taskRegistered
                      intro p' hp'
                      obtain ⟨q, hq, hfst, hcase⟩ :=
                        mem_updateTask tid nts s.tasks p' hp'
                      rcases hcase with hsame | ⟨hpt, hpts⟩
                      · obtain ⟨a, ha, hd2⟩ := h.taskRegistered q hq
                        refine ⟨a, ?_, by rw [hfst]; exact hd2⟩
                        show ((s.heap.set ts.obj jW)[p'.2.obj]?).map Job.id = some a
                        rw [hidset p'.2.obj, hsame]
                        exact ha
                      · have hq2 : q = (tid, ts) := hTidEq q hq
                          (by rw [← hfst]; exact hpt)
                        obtain ⟨a, ha, hd2⟩ := h.taskRegistered (tid, ts) htask
                        refine ⟨a, ?_, by rw [hfst, hq2]; exact hd2⟩
                        show ((s.heap.set ts.obj jW)[p'.2.obj]?).map Job.id = some a
                        rw [hidset p'.2.obj, hpts]
                        exact ha
                    · -- tidsNodup
                      show ((updateTask tid nts s.tasks).map Prod.fst).Nodup
                      rw [updateTask_fst]
                      exact h.tidsNodup
                    · -- tidsLt
                      intro p' hp'
                      obtain ⟨q, hq, hfst, _⟩ :=
                        mem_updateTask tid nts s.tasks p' hp'
                      rw [hfst]
                      exact h.tidsLt q hq
                    · -- registryWF
                      intro q hq
                      have := h.registryWF q hq
                      show ((s.heap.set ts.obj jW)[q.2]?).map Job.id = some q.1
                      rw [hidset q.2]
                      exact this
                    · exact h.fifoReg
                    · exact h.fifoNodup
                    · -- taskIdsNotQueued
                      intro p' hp' a hoa
                      obtain ⟨q, hq, hfst, hcase⟩ :=
                        mem_updateTask tid nts s.tasks p' hp'
                      have hobjeq : p'.2.obj = q.2.obj := by
                        rcases hcase with hsame | ⟨hpt, hpts⟩
                        · rw [hsame]
                        · have hq2 : q = (tid, ts) := hTidEq q hq
                            (by rw [← hfst]; exact hpt)
                          rw [hpts, hq2]
                      have hoa' : objId s q.2.obj = some a := by
                        have h0 : ((s.heap.set ts.obj jW)[p'.2.obj]?).map Job.id
                            = some a := hoa
                        rw [hidset p'.2.obj, hobjeq] at h0
                        exact h0
                      exact h.taskIdsNotQueued q hq a hoa'
                    · -- dictBacked
                      intro e he
                      obtain ⟨p, hpm, hpe, hpo⟩ := h.dictBacked e he
                      rcases updateTask_mem tid nts s.tasks p hpm with
                        ⟨hpt, hmem⟩ | ⟨_, hmem⟩
                      · have hp2 : p = (tid, ts) := hTidEq p hpm hpt
                        refine ⟨(p.1, nts), hmem, by rw [← hpe], ?_⟩
                        show ((s.heap.set ts.obj jW)[nts.obj]?).map Job.id = some e.1
                        rw [hidset nts.obj]
                        have hnn : nts.obj = p.2.obj := by rw [hp2]
                        rw [hnn]
                        exact hpo
                      · refine ⟨p, hmem, hpe, ?_⟩
                        show ((s.heap.set ts.obj jW)[p.2.obj]?).map Job.id = some e.1
                        rw [hidset p.2.obj]
                        exact hpo
                    · exact h.dictKeysNodup
                    · -- heapIdsReg
                      intro i j2 hij
                      by_cases hi : ts.obj = i
                      · subst hi
                        rw [List.getElem?_set_self (by simpa using hlt)] at hij
                        cases hij
                        exact h.heapIdsReg ts.obj j hh
                      · rw [List.getElem?_set_ne hi] at hij
                        exact h.heapIdsReg i j2 hij
                    · -- heapIdsNodup
                      intro i j1 i' j1' hi1 hi1' hideq
                      by_cases hi : ts.obj = i <;> by_cases hi' : ts.obj = i'
                      · rw [← hi, ← hi']
                      · subst hi
                        rw [List.getElem?_set_self (by simpa using hlt)] at hi1
                        rw [List.getElem?_set_ne hi'] at hi1'
                        cases hi1
                        exact h.heapIdsNodup ts.obj j i' j1' hh hi1' hideq
                      · subst hi'
                        rw [List.getElem?_set_self (by simpa using hlt)] at hi1'
                        rw [List.getElem?_set_ne hi] at hi1
                        cases hi1'
                        exact h.heapIdsNodup i j1 ts.obj j hi1 hh hideq
                      · rw [List.getElem?_set_ne hi] at hi1
                        rw [List.getElem?_set_ne hi'] at hi1'
                        exact h.heapIdsNodup i j1 i' j1' hi1 hi1' hideq
                    · -- execRunning
                      intro p' hp' hpex j2 hj2
                      obtain ⟨q, hq, hfst, hcase⟩ :=
                        mem_updateTask tid nts s.tasks p' hp'
                      have hqex : isExecuting q.2.phase = true := by
                        rcases hcase with hsame | ⟨hpt, hpts⟩
                        · rw [← hsame]; exact hpex
                        · have hq2 : q = (tid, ts) := hTidEq q hq
                            (by rw [← hfst]; exact hpt)
                          rw [hq2]
                          exact hex
                      have hobjeq : p'.2.obj = q.2.obj := by
                        rcases hcase with hsame | ⟨hpt, hpts⟩
                        · rw [hsame]
                        · have hq2 : q = (tid, ts) := hTidEq q hq
                            (by rw [← hfst]; exact hpt)
                          rw [hpts, hq2]
                      by_cases hi : q.2.obj = ts.obj
                      · have h0 : (s.heap.set ts.obj jW)[ts.obj]? = some jW :=
                          List.getElem?_set_self (by simpa using hlt)
                        have hj2' : (s.heap.set ts.obj jW)[p'.2.obj]? = some j2 := hj2
                        rw [hobjeq, hi, h0] at hj2'
                        cases hj2'
                        rw [hst]
                        exact h.execRunning q hq hqex j (hi ▸ hh)
                      · have hj2' : s.heap[q.2.obj]? = some j2 := by
                          have h0 : (s.heap.set ts.obj jW)[p'.2.obj]? = some j2 := hj2
                          rw [hobjeq] at h0
                          rw [List.getElem?_set_ne (fun hh2 => hi hh2.symm)] at h0
                          exact h0
                        exact h.execRunning q hq hqex j2 hj2'
                    · -- countBound
                      have hcnt := countP_set_of_getElem s.heap ts.obj j jW
                        (fun x => x.status == JobStatus.running) hh
                      have hsame2 : ((jW.status == JobStatus.running) : Bool)
                          = (j.status == JobStatus.running) := by rw [hst]
                      simp only [hsame2] at hcnt
                      have hcnt2 := countP_updateTask_same tid nts s.tasks
                        (fun p => isCreated p.2.phase) ?_
                      · show (s.heap.set ts.obj jW).countP _ +
                          (updateTask tid nts s.tasks).countP _ ≤
                          s.runningDict.length
                        have hb := h.countBound
                        omega
                      · intro q hq hqt
                        have hq2 : q = (tid, ts) := hTidEq q hq hqt
                        show isCreated nts.phase = isCreated q.2.phase
                        rw [hq2, hph]
                        rfl

end CreativeStudio

namespace CreativeStudio

theorem inv_now (s : QState) (t : Nat) (h : Inv s) : Inv { s with now := t } :=
  ⟨h.capBound, h.runningOwned, h.objsDistinct, h.taskRegistered, h.tidsNodup,
    h.tidsLt, h.registryWF, h.fifoReg, h.fifoNodup, h.taskIdsNotQueued,
    h.dictBacked, h.dictKeysNodup, h.heapIdsReg, h.heapIdsNodup,
    h.execRunning, h.countBound⟩

/-- Every event of the system preserves the queue invariant, provided
submissions are fresh. -/
theorem inv_step (s : QState) (e : Event) (h : Inv s) (hf : FreshOK s e) :
    Inv (step s e) := by
  cases e with
  | submit id wf => exact inv_now _ _ (inv_submit s id wf h hf)
  | workerLoop => exact inv_now _ _ (inv_worker s h)
  | beginTask tid => exact inv_now _ _ (inv_begin s tid h)
  | stageRun tid o => exact inv_now _ _ (inv_stage s tid o h)
  | observeCancel tid => exact inv_now _ _ (inv_observe s tid h)
  | cancel id => exact inv_now _ _ (inv_cancel s id h)

/-- How one step changes the bookkeeping fields: the capacity is constant,
the clock advances by one, and the registry/heap either stay put, or gain
the submitted job, or have one job object overwritten in place preserving
its `created_at` and writing `progress` only as 1.0. -/
theorem step_frame (s : QState) (e : Event) :
    (step s e).maxConcurrent = s.maxConcurrent ∧
    (step s e).now = s.now + 1 ∧
    (((step s e).jobs = s.jobs ∧ (step s e).heap = s.heap) ∨
     (∃ id wf, e = Event.submit id wf ∧
       (step s e).jobs = dictSet s.jobs id s.heap.length ∧
       (step s e).heap = s.heap ++ [newJob id wf s.now]) ∨
     ((step s e).jobs = s.jobs ∧ ∃ idx j j', s.heap[idx]? = some j ∧
       (step s e).heap = s.heap.set idx j' ∧ j'.createdAt = j.createdAt ∧
       (j'.progress = j.progress ∨ j'.progress = 1))) := by
  cases e with
  | submit id wf =>
      exact ⟨rfl, rfl, Or.inr (Or.inl ⟨id, wf, rfl, rfl, rfl⟩)⟩
  | workerLoop =>
      refine ⟨?_, ?_, Or.inl ⟨?_, ?_⟩⟩ <;>
      · show _ = _
        unfold step workerStep
        cases s.fifo with
        | nil => rfl
        | cons jid rest =>
            dsimp only
            cases dictGet s.jobs jid with
            | none => rfl
            | some idx =>
                dsimp only
                by_cases hcap : s.runningDict.length < s.maxConcurrent
                · rw [if_pos hcap]
                · rw [if_neg hcap]
  | beginTask tid =>
      unfold step beginTaskStep
      dsimp only
      cases ht : taskGet s tid with
      | none => exact ⟨rfl, rfl, Or.inl ⟨rfl, rfl⟩⟩
      | some ts =>
          dsimp only
          by_cases hp : ts.phase = TaskPhase.created
          · rw [if_pos hp]
            cases hh : s.heap[ts.obj]? with
            | none => exact ⟨rfl, rfl, Or.inl ⟨rfl, rfl⟩⟩
            | some j =>
                dsimp only
                exact ⟨rfl, rfl, Or.inr (Or.inr ⟨rfl, ts.obj, j,
                  { j with status := JobStatus.running, startedAt := some s.now },
                  hh, rfl, rfl, Or.inl rfl⟩)⟩
          · rw [if_neg hp]
            exact ⟨rfl, rfl, Or.inl ⟨rfl, rfl⟩⟩
  | stageRun tid o =>
      unfold step stageStep
      dsimp only
      cases ht : taskGet s tid with
      | none => exact ⟨rfl, rfl, Or.inl ⟨rfl, rfl⟩⟩
      | some ts =>
          dsimp only
          cases hph : ts.phase with
          | created => exact ⟨rfl, rfl, Or.inl ⟨rfl, rfl⟩⟩
          | executing k =>
              dsimp only
              cases hh : s.heap[ts.obj]? with
              | none => exact ⟨rfl, rfl, Or.inl ⟨rfl, rfl⟩⟩
              | some j =>
                  dsimp only
                  rcases hrs : runStage s.bucket k o j.workflowJson with ⟨w', rest⟩
                  rcases hrest : rest with ⟨calls, err⟩
                  dsimp only
                  cases herr : err with
                  | some e =>
                      dsimp only
                      refine ⟨rfl, rfl, Or.inr (Or.inr ⟨rfl, ts.obj, j, _,
                        hh, rfl, rfl, Or.inl rfl⟩)⟩
                  | none =>
                      dsimp only
                      by_cases hk : k = 4
                      · rw [if_pos hk]
                        refine ⟨rfl, rfl, Or.inr (Or.inr ⟨rfl, ts.obj, j, _,
                          hh, rfl, rfl, Or.inr rfl⟩)⟩
                      · rw [if_neg hk]
                        refine ⟨rfl, rfl, Or.inr (Or.inr ⟨rfl, ts.obj, j, _,
                          hh, rfl, rfl, Or.inl rfl⟩)⟩
  | observeCancel tid =>
      unfold step observeCancelStep
      dsimp only
      cases ht : taskGet s tid with
      | none => exact ⟨rfl, rfl, Or.inl ⟨rfl, rfl⟩⟩
      | some ts =>
          dsimp only
          by_cases hc : (ts.cancelRequested && isExecuting ts.phase) = true
          · rw [if_pos hc]
            cases hh : s.heap[ts.obj]? with
            | none => exact ⟨rfl, rfl, Or.inl ⟨rfl, rfl⟩⟩
            | some j =>
                dsimp only
                exact ⟨rfl, rfl, Or.inr (Or.inr ⟨rfl, ts.obj, j, _,
                  hh, rfl, rfl, Or.inl rfl⟩)⟩
          · rw [if_neg hc]
            exact ⟨rfl, rfl, Or.inl ⟨rfl, rfl⟩⟩
  | cancel id =>
      unfold step cancelJob
      dsimp only
      cases hj : dictGet s.jobs id with
      | none => exact ⟨rfl, rfl, Or.inl ⟨rfl, rfl⟩⟩
      | some idx =>
          dsimp only
          cases hh : s.heap[idx]? with
          | none => exact ⟨rfl, rfl, Or.inl ⟨rfl, rfl⟩⟩
          | some j =>
              dsimp only
              by_cases hr : j.status = JobStatus.running
              · rw [if_pos hr]
                cases dictGet s.runningDict id with
                | none => exact ⟨rfl, rfl, Or.inl ⟨rfl, rfl⟩⟩
                | some tid => exact ⟨rfl, rfl, Or.inl ⟨rfl, rfl⟩⟩
              · rw [if_neg hr]
                by_cases hq : j.status = JobStatus.queued
                · rw [if_pos hq]
                  exact ⟨rfl, rfl, Or.inr (Or.inr ⟨rfl, idx, j,
                    { j with status := JobStatus.cancelled }, hh, rfl, rfl,
                    Or.inl rfl⟩)⟩
                · rw [if_neg hq]
                  exact ⟨rfl, rfl, Or.inl ⟨rfl, rfl⟩⟩

/-- Induction principle over a trace whose submissions are pairwise fresh. -/
theorem run_fresh (P : QState → Prop)
    (hstep : ∀ s e, P s → FreshOK s e → P (step s e)) :
    ∀ (es : List Event) (s : QState), P s → (submitIds es).Nodup →
      (∀ id ∈ submitIds es, dictGet s.jobs id = none) → P (run s es) := by
  intro es
  induction es with
  | nil =>
      intro s hP _ _
      exact hP
  | cons e es ih =>
      intro s hP hnd hfr
      have hfe : FreshOK s e := by
        cases e with
        | submit id wf => exact hfr id (by simp [submitIds])
        | workerLoop => trivial
        | beginTask tid => trivial
        | stageRun tid o => trivial
        | observeCancel tid => trivial
        | cancel id => trivial
      have hP' := hstep s e hP hfe
      have hstep3 := (step_frame s e).2.2
      refine ih (step s e) hP' ?_ ?_
      · cases e with
        | submit id wf =>
            have : submitIds (Event.submit id wf :: es) = id :: submitIds es :=
              rfl
            rw [this] at hnd
            exact hnd.of_cons
        | workerLoop => exact hnd
        | beginTask tid => exact hnd
        | stageRun tid o => exact hnd
        | observeCancel tid => exact hnd
        | cancel id => exact hnd
      · intro id' hid'
        rcases hstep3 with ⟨hjobs, _⟩ | ⟨id, wf, he, hjobs, _⟩ | ⟨hjobs, _⟩
        · rw [hjobs]
          apply hfr
          cases e <;> simp [submitIds] at hid' ⊢ <;> try exact hid'
          exact Or.inr hid'
        · rw [hjobs]
          have hne : id' ≠ id := by
            subst he
            have : submitIds (Event.submit id wf :: es) = id :: submitIds es :=
              rfl
            rw [this, List.nodup_cons] at hnd
            intro hcontra
            rw [hcontra] at hid'
            exact hnd.1 hid'
          rw [dictGet_set_ne s.jobs id id' s.heap.length hne]
          apply hfr
          subst he
          simp [submitIds]
          exact Or.inr hid'
        · rw [hjobs]
          apply hfr
          cases e <;> simp [submitIds] at hid' ⊢ <;> try exact hid'
          exact Or.inr hid'

/-- Along any distinct-id trace from a fresh queue the invariant holds. -/
theorem inv_run (k : Nat) (es : List Event) (h : (submitIds es).Nodup) :
    Inv (run (initState k) es) := by
  refine run_fresh Inv inv_step es (initState k) (invInit k) h ?_
  intro id _
  rfl

theorem maxConcurrent_run (k : Nat) (es : List Event) :
    (run (initState k) es).maxConcurrent = k := by
  suffices hgen : ∀ (es : List Event) (s : QState),
      (run s es).maxConcurrent = s.maxConcurrent by
    exact hgen es (initState k)
  intro es
  induction es with
  | nil => intro s; rfl
  | cons e es ih =>
      intro s
      have := (step_frame s e).1
      rw [show run s (e :: es) = run (step s e) es from rfl, ih (step s e), this]

end CreativeStudio

namespace CreativeStudio

theorem heapMap_set {α : Type} (f : Job → α) (h : List Job) (idx : Nat)
    (j j' : Job) (hj : h[idx]? = some j) (hf : f j' = f j) (i : Nat) :
    ((h.set idx j')[i]?).map f = (h[i]?).map f := by
  by_cases hi : idx = i
  · subst hi
    have hlt : idx < h.length := List.getElem?_eq_some_iff.1 hj |>.1
    rw [List.getElem?_set_self (by simpa using hlt), hj]
    simp [hf]
  · rw [List.getElem?_set_ne hi]

theorem chrono_step (s : QState) (e : Event) (h : ChronoInv s)
    (hf : FreshOK s e) : ChronoInv (step s e) := by
  obtain ⟨hsort, hbound, hvalid⟩ := h
  obtain ⟨_, hnow, hcase⟩ := step_frame s e
  rcases hcase with ⟨hjobs, hheap⟩ | ⟨id, wf, he, hjobs, hheap⟩ |
    ⟨hjobs, idx, j, j', hj, hheap, hcr, _⟩
  · have heq : regCreatedAts (step s e) = regCreatedAts s := by
      unfold regCreatedAts
      rw [hjobs, hheap]
    refine ⟨heq ▸ hsort, ?_, ?_⟩
    · intro c hc
      rw [heq] at hc
      rw [hnow]
      exact Nat.lt_succ_of_lt (hbound c hc)
    · intro p hp
      rw [hjobs] at hp
      rw [hheap]
      exact hvalid p hp
  · have hfr : dictGet s.jobs id = none := by
      subst he
      exact hf
    have hjobs2 : (step s e).jobs = s.jobs ++ [(id, s.heap.length)] := by
      rw [hjobs]
      exact dictSet_append_of_none s.jobs id s.heap.length hfr
    have hptwise : ∀ p ∈ s.jobs,
        (((s.heap ++ [newJob id wf s.now])[p.2]?).map Job.createdAt)
          = ((s.heap[p.2]?).map Job.createdAt) := by
      intro p hp
      rw [List.getElem?_append_left (hvalid p hp)]
    have heq : regCreatedAts (step s e) = regCreatedAts s ++ [s.now] := by
      unfold regCreatedAts
      rw [hjobs2, hheap, List.filterMap_append]
      congr 1
      · exact List.filterMap_congr hptwise
      · show List.filterMap _ [(id, s.heap.length)] = [s.now]
        simp only [List.filterMap_cons, List.filterMap_nil,
          List.getElem?_concat_length]
        rfl
    refine ⟨?_, ?_, ?_⟩
    · rw [heq, List.pairwise_append]
      refine ⟨hsort, List.pairwise_singleton _ _, ?_⟩
      intro c hc d hd
      simp only [List.mem_singleton] at hd
      subst hd
      exact Nat.le_of_lt (hbound c hc)
    · intro c hc
      rw [heq] at hc
      rw [hnow]
      rcases List.mem_append.1 hc with hc | hc
      · exact Nat.lt_succ_of_lt (hbound c hc)
      · simp only [List.mem_singleton] at hc
        subst hc
        exact Nat.lt_succ_self _
    · intro p hp
      rw [hjobs2] at hp
      rw [hheap, List.length_append]
      rcases List.mem_append.1 hp with hp | hp
      · have := hvalid p hp
        simp only [List.length_singleton]
        omega
      · simp only [List.mem_singleton] at hp
        subst hp
        simp
  · have hptwise : ∀ p ∈ s.jobs,
        (((s.heap.set idx j')[p.2]?).map Job.createdAt)
          = ((s.heap[p.2]?).map Job.createdAt) := by
      intro p _
      exact heapMap_set Job.createdAt s.heap idx j j' hj hcr p.2
    have heq : regCreatedAts (step s e) = regCreatedAts s := by
      unfold regCreatedAts
      rw [hjobs, hheap]
      exact List.filterMap_congr hptwise
    refine ⟨heq ▸ hsort, ?_, ?_⟩
    · intro c hc
      rw [heq] at hc
      rw [hnow]
      exact Nat.lt_succ_of_lt (hbound c hc)
    · intro p hp
      rw [hjobs] at hp
      rw [hheap, List.length_set]
      exact hvalid p hp

theorem chrono_run (k : Nat) (es : List Event)
    (h : (submitIds es).Nodup) : ChronoInv (run (initState k) es) := by
  refine run_fresh ChronoInv chrono_step es (initState k) ?_ h ?_
  · exact ⟨List.Pairwise.nil, by intro c hc; simp [regCreatedAts, initState] at hc,
      by intro p hp; simp [initState] at hp⟩
  · intro id _
    rfl

theorem listJobs_map_createdAt (s : QState) :
    (listJobs s none).map Job.createdAt = regCreatedAts s := by
  unfold listJobs regCreatedAts
  rw [List.map_filterMap]

/-- `progress` only ever holds 0.0 or 1.0, on every job object. -/
theorem progress_step (s : QState) (e : Event)
    (h : ∀ j ∈ s.heap, j.progress = 0 ∨ j.progress = 1) :
    ∀ j ∈ (step s e).heap, j.progress = 0 ∨ j.progress = 1 := by
  obtain ⟨_, _, hcase⟩ := step_frame s e
  rcases hcase with ⟨_, hheap⟩ | ⟨id, wf, _, _, hheap⟩ |
    ⟨_, idx, j0, j', hj0, hheap, _, hpr⟩
  · rw [hheap]
    exact h
  · rw [hheap]
    intro j hj
    rcases List.mem_append.1 hj with hold | hnew
    · exact h j hold
    · simp only [List.mem_singleton] at hnew
      subst hnew
      left
      rfl
  · rw [hheap]
    intro j hj
    rcases List.mem_or_eq_of_mem_set hj with hold | hnew
    · exact h j hold
    · subst hnew
      rcases hpr with hp | hp
      · rw [hp]
        exact h j0 (List.getElem?_mem hj0)
      · right
        exact hp

theorem progress_run (k : Nat) (es : List Event) :
    ∀ j ∈ (run (initState k) es).heap, j.progress = 0 ∨ j.progress = 1 := by
  suffices hgen : ∀ (es : List Event) (s : QState),
      (∀ j ∈ s.heap, j.progress = 0 ∨ j.progress = 1) →
      ∀ j ∈ (run s es).heap, j.progress = 0 ∨ j.progress = 1 by
    refine hgen es (initState k) ?_
    intro j hj
    simp [initState] at hj
  intro es
  induction es with
  | nil => intro s h; exact h
  | cons e es ih =>
      intro s h
      exact ih (step s e) (progress_step s e h)

end CreativeStudio

namespace CreativeStudio

theorem setCancel_idem (tid : Nat) (l : List (Nat × TaskState)) :
    setCancel tid (setCancel tid l) = setCancel tid l := by
  induction l with
  | nil => rfl
  | cons p l ih =>
      by_cases hp : p.1 = tid
      · simp only [setCancel, List.map_cons, hp, if_pos, List.cons.injEq]
        refine ⟨by constructor, ?_⟩
        simp only [setCancel] at ih
        exact ih
      · simp only [setCancel, List.map_cons, hp, if_neg, Bool.false_eq_true,
          not_false_iff, List.cons.injEq, true_and]
        simp only [setCancel] at ih
        exact ih

/-- `cancel_job` on a job in a terminal state returns True and changes
nothing at all. -/
theorem cancelJob_terminal (s : QState) (id : String) (idx : Nat) (j : Job)
    (h1 : dictGet s.jobs id = some idx) (h2 : s.heap[idx]? = some j)
    (h3 : j.status = JobStatus.completed ∨ j.status = JobStatus.failed ∨
      j.status = JobStatus.cancelled) :
    cancelJob s id = (s, true) := by
  have hnr : ¬j.status = JobStatus.running := by
    rcases h3 with h | h | h <;> rw [h] <;> intro hc <;> exact JobStatus.noConfusion hc
  have hnq : ¬j.status = JobStatus.queued := by
    rcases h3 with h | h | h <;> rw [h] <;> intro hc <;> exact JobStatus.noConfusion hc
  unfold cancelJob
  rw [h1]
  dsimp only
  rw [h2]
  dsimp only
  rw [if_neg hnr, if_neg hnq]

/-- `cancel_job` is idempotent: a second cancel call returns the same state
and the same result as the first. -/
theorem cancelJob_idem (s : QState) (id : String) :
    cancelJob (cancelJob s id).1 id = cancelJob s id := by
  cases hj : dictGet s.jobs id with
  | none =>
      have h0 : cancelJob s id = (s, false) := by
        unfold cancelJob
        rw [hj]
      rw [h0]
      exact h0
  | some idx =>
      cases hh : s.heap[idx]? with
      | none =>
          have h0 : cancelJob s id = (s, true) := by
            unfold cancelJob
            rw [hj]
            dsimp only
            rw [hh]
          rw [h0]
          exact h0
      | some j =>
          by_cases hr : j.status = JobStatus.running
          · cases hd : dictGet s.runningDict id with
            | none =>
                have h0 : cancelJob s id = (s, true) := by
                  unfold cancelJob
                  rw [hj]
                  dsimp only
                  rw [hh]
                  dsimp only
                  rw [if_pos hr, hd]
                rw [h0]
                exact h0
            | some tid =>
                have h0 : cancelJob s id =
                    ({ s with tasks := setCancel tid s.tasks }, true) := by
                  unfold cancelJob
                  rw [hj]
                  dsimp only
                  rw [hh]
                  dsimp only
                  rw [if_pos hr, hd]
                rw [h0]
                unfold cancelJob
                rw [show dictGet ({ s with tasks := setCancel tid s.tasks } :
                  QState).jobs id = some idx from hj]
                dsimp only
                rw [show (({ s with tasks := setCancel tid s.tasks } :
                  QState).heap)[idx]? = some j from hh]
                dsimp only
                rw [if_pos hr]
                rw [show dictGet ({ s with tasks := setCancel tid s.tasks } :
                  QState).runningDict id = some tid from hd]
                dsimp only
                rw [setCancel_idem tid s.tasks]
          · by_cases hq : j.status = JobStatus.queued
            · have hlt : idx < s.heap.length :=
                List.getElem?_eq_some_iff.1 hh |>.1
              have h0 : cancelJob s id =
                  ({ s with heap := s.heap.set idx ({ j with status := JobStatus.cancelled }) }, true) := by
                unfold cancelJob
                rw [hj]
                dsimp only
                rw [hh]
                dsimp only
                rw [if_neg hr, if_pos hq]
              rw [h0]
              refine cancelJob_terminal _ id idx
                { j with status := JobStatus.cancelled } hj ?_ ?_
              · show (s.heap.set idx _)[idx]? = _
                rw [List.getElem?_set_self (by simpa using hlt)]
              · exact Or.inr (Or.inr rfl)
            · have h0 : cancelJob s id = (s, true) := by
                unfold cancelJob
                rw [hj]
                dsimp only
                rw [hh]
                dsimp only
                rw [if_neg hr, if_neg hq]
              rw [h0]
              exact h0

end CreativeStudio

namespace CreativeStudio

theorem imagenCalls_all (style : Style) (shots : List Shot) :
    ∀ c ∈ imagenCalls style shots, isImagenCall c = true := by
  induction shots with
  | nil => intro c hc; simp [imagenCalls] at hc
  | cons sh rest ih =>
      intro c hc
      rcases List.mem_cons.1 hc with hc | hc
      · rw [hc]; rfl
      · exact ih c hc

theorem firstKeyframeErr_isSome (o : ExecOutcomes) :
    ∀ (n start : Nat),
    (∃ i, i < n ∧ (errOf (o.keyframe (start + i))).isSome = true) →
    (firstKeyframeErr o start n).isSome = true := by
  intro n
  induction n with
  | zero =>
      rintro start ⟨i, hi, _⟩
      omega
  | succ m ih =>
      rintro start ⟨i, hi, he⟩
      unfold firstKeyframeErr
      cases h0 : errOf (o.keyframe start) with
      | some e => rfl
      | none =>
          dsimp only
          apply ih (start + 1)
          cases i with
          | zero =>
              rw [Nat.add_zero] at he
              rw [h0] at he
              simp at he
          | succ i' =>
              refine ⟨i', by omega, ?_⟩
              rw [show start + 1 + i' = start + (i' + 1) from by omega]
              exact he

theorem firstKeyframeErr_none (o : ExecOutcomes) :
    ∀ (n start : Nat),
    (∀ i, i < n → errOf (o.keyframe (start + i)) = none) →
    firstKeyframeErr o start n = none := by
  intro n
  induction n with
  | zero => intro start _; rfl
  | succ m ih =>
      intro start hall
      unfold firstKeyframeErr
      have h0 : errOf (o.keyframe start) = none := by
        have := hall 0 (by omega)
        rwa [Nat.add_zero] at this
      rw [h0]
      dsimp only
      apply ih (start + 1)
      intro i hi
      rw [show start + 1 + i = start + (i + 1) from by omega]
      exact hall (i + 1) (by omega)

theorem setKeyframes_keyframeUri (bucket wid : String) :
    ∀ (i : Nat) (shots : List Shot),
    ∀ s' ∈ setKeyframes bucket wid i shots, s'.keyframeUri.isSome = true := by
  intro i shots
  induction shots generalizing i with
  | nil => intro s' hs'; simp [setKeyframes] at hs'
  | cons sh rest ih =>
      intro s' hs'
      rcases List.mem_cons.1 hs' with hs' | hs'
      · rw [hs']
        rfl
      · exact ih (i + 1) s' hs'

theorem setKeyframes_length (bucket wid : String) :
    ∀ (i : Nat) (shots : List Shot),
    (setKeyframes bucket wid i shots).length = shots.length := by
  intro i shots
  induction shots generalizing i with
  | nil => rfl
  | cons sh rest ih =>
      show (setKeyframes bucket wid i (sh :: rest)).length = rest.length + 1
      unfold setKeyframes
      rw [List.length_cons, ih (i + 1)]

theorem runVideos_keyframeUri_map (bucket wid : String) (o : ExecOutcomes) :
    ∀ (i : Nat) (shots : List Shot),
    (runVideos bucket wid o i shots).1.map Shot.keyframeUri
      = shots.map Shot.keyframeUri := by
  intro i shots
  induction shots generalizing i with
  | nil => rfl
  | cons sh rest ih =>
      unfold runVideos
      cases hk : sh.keyframeUri with
      | none => rfl
      | some kUri =>
          dsimp only
          cases o.video i with
          | error e => rfl
          | ok v =>
              dsimp only
              rw [List.map_cons, List.map_cons]
              have := ih (i + 1)
              rcases hrv : runVideos bucket wid o (i + 1) rest with ⟨rest', calls, err⟩
              rw [hrv] at this
              dsimp only
              rw [this, hk]

theorem runVideos_err_isSome (bucket wid : String) (o : ExecOutcomes) :
    ∀ (shots : List Shot) (i : Nat),
    (∀ s' ∈ shots, s'.keyframeUri.isSome = true) →
    (∃ m, m < shots.length ∧ (errOf (o.video (i + m))).isSome = true) →
    (runVideos bucket wid o i shots).2.2.isSome = true := by
  intro shots
  induction shots with
  | nil =>
      rintro i _ ⟨m, hm, _⟩
      simp at hm
  | cons sh rest ih =>
      rintro i hks ⟨m, hm, he⟩
      unfold runVideos
      cases hk : sh.keyframeUri with
      | none => rfl
      | some kUri =>
          dsimp only
          cases hv : o.video i with
          | error e => rfl
          | ok v =>
              dsimp only
              rcases hrv : runVideos bucket wid o (i + 1) rest with ⟨rest', calls, err⟩
              dsimp only
              have hrec := ih (i + 1)
                (fun s' hs' => hks s' (List.mem_cons_of_mem _ hs')) ?_
              · rw [hrv] at hrec
                exact hrec
              · cases m with
                | zero =>
                    rw [Nat.add_zero] at he
                    rw [hv] at he
                    simp [errOf] at he
                | succ m' =>
                    refine ⟨m', by simp at hm; omega, ?_⟩
                    rw [show i + 1 + m' = i + (m' + 1) from by omega]
                    exact he

end CreativeStudio

namespace CreativeStudio

end CreativeStudio

namespace CreativeStudio

/-- C1: the spec claims that cancelling a Queued job transitions it to
Cancelled and the dispatcher never starts it (no Running status, no
capability invoked). The code violates this: `_worker` pops the id without
re-checking the status, so the cancelled job is handed to `_execute_job`,
which sets it Running and invokes the keyframe capability. Evaluated at the
failing trace: submit, cancel-while-queued, one worker iteration, task
start, one stage step. -/
theorem c1_cancelled_while_queued_job_is_started :
    ((getJob (run (initState 1) [.submit "j" wf0, .cancel "j"]) "j").map
        Job.status = some JobStatus.cancelled) ∧
    ((run (initState 1) [.submit "j" wf0, .cancel "j"]).capLog = []) ∧
    ((getJob (run (initState 1) [.submit "j" wf0, .cancel "j", .workerLoop,
        .beginTask 0]) "j").map Job.status = some JobStatus.running) ∧
    ((run (initState 1) [.submit "j" wf0, .cancel "j", .workerLoop,
        .beginTask 0, .stageRun 0 okOut]).capLog.map
        (fun e => isImagenCall e.2) = [true]) := by
  decide

/-- C2: the spec claims terminal states (Completed, Failed, Cancelled) are
final: no later step changes status, result, error or timestamps. The code
violates this for Cancelled: a job cancelled while Queued is later set back
to Running by the dispatcher, and its `started_at` is written. Evaluated at
the failing trace. -/
theorem c2_cancelled_terminal_state_is_mutated :
    ((getJob (run (initState 1) [.submit "x" wf0, .cancel "x"]) "x").map
        (fun j => (j.status, j.startedAt))
      = some (JobStatus.cancelled, none)) ∧
    ((getJob (run (initState 1) [.submit "x" wf0, .cancel "x", .workerLoop,
        .beginTask 0]) "x").map (fun j => (j.status, j.startedAt))
      = some (JobStatus.running, some 3)) := by
  decide

/-- C3 counterexample: the claim says Cancel on a terminal job returns
false. On a Completed job the code returns True (`cancel_job` only returns
False for an unknown id). -/
theorem c3_counterexample :
    ((getJob (run (initState 1) [.submit "j" wf0, .workerLoop, .beginTask 0,
        .stageRun 0 okOut, .stageRun 0 okOut, .stageRun 0 okOut,
        .stageRun 0 okOut, .stageRun 0 okOut]) "j").map Job.status
      = some JobStatus.completed) ∧
    ((cancelJob (run (initState 1) [.submit "j" wf0, .workerLoop, .beginTask 0,
        .stageRun 0 okOut, .stageRun 0 okOut, .stageRun 0 okOut,
        .stageRun 0 okOut, .stageRun 0 okOut]) "j").2 = true) ∧
    ¬((cancelJob (run (initState 1) [.submit "j" wf0, .workerLoop, .beginTask 0,
        .stageRun 0 okOut, .stageRun 0 okOut, .stageRun 0 okOut,
        .stageRun 0 okOut, .stageRun 0 okOut]) "j").2 = false) := by
  decide

/-- C3 (amended): Cancel is idempotent — a second cancel call returns the
same state and result as the first — and on a job in a terminal state it is
a complete no-op on the state, but it returns true, not false as the spec
claims. -/
theorem c3_cancel_idempotent_and_terminal_noop :
    (∀ (s : QState) (id : String),
      cancelJob (cancelJob s id).1 id = cancelJob s id) ∧
    (∀ (s : QState) (id : String) (idx : Nat) (j : Job),
      dictGet s.jobs id = some idx → s.heap[idx]? = some j →
      (j.status = JobStatus.completed ∨ j.status = JobStatus.failed ∨
        j.status = JobStatus.cancelled) →
      cancelJob s id = (s, true)) :=
  ⟨cancelJob_idem, cancelJob_terminal⟩

/-- C3 witness: the terminal-no-op theorem applied to a concrete Completed
job. -/
theorem c3_witness : cancelJob sTerm "j" = (sTerm, true) :=
  c3_cancel_idempotent_and_terminal_noop.2 sTerm "j" 0 jTerm (by decide)
    (by decide) (Or.inl (by decide))

end CreativeStudio

namespace CreativeStudio

/-- C4 counterexample: in a 4-shot job whose video stage fails on shot 3
after all keyframes completed, the claim says `result` references the 4
keyframe assets. In the code `_execute_job` never writes `result` on
failure: the job is Failed with `result = None`, even though all 4
keyframe URIs exist (in the workflow dict, not in result). -/
theorem c4_counterexample :
    ((executeJobPure "bucket" (newJob "j" wf4 0) veoFailOut 1).1.status
      = JobStatus.failed) ∧
    ((executeJobPure "bucket" (newJob "j" wf4 0) veoFailOut 1).1.result
      = none) ∧
    ((executeJobPure "bucket" (newJob "j" wf4 0) veoFailOut 1).1.workflowJson.spec.shots.all
      (fun s => s.keyframeUri.isSome) = true) := by
  decide

/-- C4 (amended): when every keyframe succeeds and some shot's video
generation fails, the job ends Failed and the keyframe assets produced by
the completed keyframes stage remain referenced — but in the job's
`workflow_json` (mutated in place, with `progress['keyframes'] =
"complete"`), not in `result`, which stays None on failure. -/
theorem c4_failed_job_keeps_assets_in_workflow_json_not_result
    (bucket : String) (j : Job) (o : ExecOutcomes) (t : Nat)
    (hkf : ∀ i, i < j.workflowJson.spec.shots.length →
      errOf (o.keyframe i) = none)
    (hv : ∃ m, m < j.workflowJson.spec.shots.length ∧
      (errOf (o.video m)).isSome = true)
    (hres : j.result = none) :
    ((executeJobPure bucket j o t).1.status = JobStatus.failed) ∧
    ((executeJobPure bucket j o t).1.result = none) ∧
    (∀ s' ∈ (executeJobPure bucket j o t).1.workflowJson.spec.shots,
      s'.keyframeUri.isSome = true) ∧
    (dictGet (executeJobPure bucket j o t).1.workflowJson.progress "keyframes"
      = some "complete") := by
  obtain ⟨m, hm, hme⟩ := hv
  have hfe : firstKeyframeErr o 0 j.workflowJson.spec.shots.length = none := by
    refine firstKeyframeErr_none o _ 0 ?_
    intro i hi
    rw [Nat.zero_add]
    exact hkf i hi
  set w := j.workflowJson with hw
  set shots1 := setKeyframes bucket w.workflowId 0 w.spec.shots with hshots1
  set w1 : Workflow := { w with
    spec := { w.spec with shots := shots1 }
    progress := dictSet w.progress "keyframes" "complete" } with hw1
  have hgk : generateKeyframes bucket o w
      = (w1, imagenCalls w.spec.style w.spec.shots, none) := by
    unfold generateKeyframes
    dsimp only
    rw [hfe]
  have hks : ∀ s' ∈ shots1, s'.keyframeUri.isSome = true :=
    setKeyframes_keyframeUri bucket w.workflowId 0 w.spec.shots
  have hlen : shots1.length = w.spec.shots.length :=
    setKeyframes_length bucket w.workflowId 0 w.spec.shots
  rcases hrv : runVideos bucket w.workflowId o 0 shots1 with ⟨shots', calls2, err2⟩
  have herr2 : err2.isSome = true := by
    have := runVideos_err_isSome bucket w.workflowId o shots1 0 hks
      ⟨m, by omega, by rw [Nat.zero_add]; exact hme⟩
    rw [hrv] at this
    exact this
  obtain ⟨e2, he2⟩ := Option.isSome_iff_exists.1 herr2
  subst he2
  have hgv : generateVideos bucket o w1
      = ({ w1 with spec := { w1.spec with shots := shots' } }, calls2, some e2) := by
    unfold generateVideos
    rw [show w1.workflowId = w.workflowId from rfl,
      show w1.spec.shots = shots1 from rfl, hrv]
  have hew : executeWorkflow bucket w o t
      = ({ w1 with
            spec := { w1.spec with shots := shots' }
            status := "failed"
            error := some e2 },
          imagenCalls w.spec.style w.spec.shots ++ calls2, some e2) := by
    unfold executeWorkflow
    rw [hgk]
    dsimp only
    rw [hgv]
  have hmap : shots'.map Shot.keyframeUri = shots1.map Shot.keyframeUri := by
    have := runVideos_keyframeUri_map bucket w.workflowId o 0 shots1
    rw [hrv] at this
    exact this
  have hks' : ∀ s' ∈ shots', s'.keyframeUri.isSome = true := by
    intro s' hs'
    have h1 : s'.keyframeUri ∈ shots'.map Shot.keyframeUri :=
      List.mem_map_of_mem Shot.keyframeUri hs'
    rw [hmap] at h1
    rcases List.mem_map.1 h1 with ⟨x, hx, hxe⟩
    rw [← hxe]
    exact hks x hx
  have hrun : executeJobPure bucket j o t
      = ({ j with
            status := JobStatus.failed
            error := some e2
            startedAt := some t
            workflowJson := { w1 with
              spec := { w1.spec with shots := shots' }
              status := "failed"
              error := some e2 }
            completedAt := some t },
          imagenCalls w.spec.style w.spec.shots ++ calls2) := by
    unfold executeJobPure
    dsimp only
    rw [show executeWorkflow bucket j.workflowJson o t
      = executeWorkflow bucket w o t from rfl, hew]
  rw [hrun]
  refine ⟨rfl, hres, hks', ?_⟩
  show dictGet (dictSet w.progress "keyframes" "complete") "keyframes"
    = some "complete"
  exact dictGet_set_self w.progress "keyframes" "complete"

/-- C4 witness: the amended theorem applied to the concrete 4-shot job
whose shot-3 video generation fails. -/
theorem c4_witness :
    ((executeJobPure "b" (newJob "jw" wf4 0) veoFailOut 1).1.status
      = JobStatus.failed) ∧
    ((executeJobPure "b" (newJob "jw" wf4 0) veoFailOut 1).1.result = none) ∧
    (∀ s' ∈ (executeJobPure "b" (newJob "jw" wf4 0) veoFailOut 1).1.workflowJson.spec.shots,
      s'.keyframeUri.isSome = true) ∧
    (dictGet (executeJobPure "b" (newJob "jw" wf4 0) veoFailOut 1).1.workflowJson.progress
      "keyframes" = some "complete") :=
  c4_failed_job_keeps_assets_in_workflow_json_not_result "b"
    (newJob "jw" wf4 0) veoFailOut 1 (fun i _ => rfl)
    ⟨2, by decide, by decide⟩ rfl

end CreativeStudio

namespace CreativeStudio

/-- C5 counterexample: with shot 2's keyframe failing, the job does end
Failed and no video-stage call is issued, but `progress["keyframes"]`
remains "pending" — the code never writes a "failed" marker into the
per-stage progress dict (it only ever writes "complete"). -/
theorem c5_counterexample :
    ((executeJobPure "bucket" (newJob "j" wf4 0) kfFailOut 1).1.status
      = JobStatus.failed) ∧
    (dictGet (executeJobPure "bucket" (newJob "j" wf4 0) kfFailOut 1).1.workflowJson.progress
      "keyframes" = some "pending") ∧
    ¬ (dictGet (executeJobPure "bucket" (newJob "j" wf4 0) kfFailOut 1).1.workflowJson.progress
      "keyframes" = some "failed") := by
  decide

/-- C5 (amended): if any shot's keyframe generation fails, the whole
keyframe stage fails — no shot proceeds to video generation (every logged
capability call is an Imagen call), the workflow's shots are left exactly
as submitted, and the job ends Failed — but the per-stage progress dict is
left untouched (still "pending"), never set to "failed". -/
theorem c5_keyframe_failure_stops_pipeline_but_progress_stays_pending
    (bucket : String) (j : Job) (o : ExecOutcomes) (t : Nat)
    (hv : ∃ i, i < j.workflowJson.spec.shots.length ∧
      (errOf (o.keyframe i)).isSome = true) :
    ((executeJobPure bucket j o t).1.status = JobStatus.failed) ∧
    ((executeJobPure bucket j o t).1.workflowJson.spec.shots
      = j.workflowJson.spec.shots) ∧
    ((executeJobPure bucket j o t).1.workflowJson.progress
      = j.workflowJson.progress) ∧
    ((executeJobPure bucket j o t).2.all isImagenCall = true) := by
  obtain ⟨i, hi, hie⟩ := hv
  have hfe : (firstKeyframeErr o 0 j.workflowJson.spec.shots.length).isSome
      = true := by
    refine firstKeyframeErr_isSome o _ 0 ⟨i, hi, ?_⟩
    rw [Nat.zero_add]
    exact hie
  obtain ⟨e, he⟩ := Option.isSome_iff_exists.1 hfe
  set w := j.workflowJson with hw
  have hgk : generateKeyframes bucket o w
      = (w, imagenCalls w.spec.style w.spec.shots, some e) := by
    unfold generateKeyframes
    dsimp only
    rw [he]
  have hew : executeWorkflow bucket w o t
      = ({ w with status := "failed", error := some e },
          imagenCalls w.spec.style w.spec.shots, some e) := by
    unfold executeWorkflow
    rw [hgk]
  have hrun : executeJobPure bucket j o t
      = ({ j with
            status := JobStatus.failed
            error := some e
            startedAt := some t
            workflowJson := { w with status := "failed", error := some e }
            completedAt := some t },
          imagenCalls w.spec.style w.spec.shots) := by
    unfold executeJobPure
    dsimp only
    rw [show executeWorkflow bucket j.workflowJson o t
      = executeWorkflow bucket w o t from rfl, hew]
  rw [hrun]
  refine ⟨rfl, rfl, rfl, ?_⟩
  exact List.all_eq_true.2 (imagenCalls_all w.spec.style w.spec.shots)

/-- C5 witness: the amended theorem at the concrete job whose shot-2
keyframe fails. -/
theorem c5_witness :
    ((executeJobPure "b" (newJob "jw" wf4 0) kfFailOut 2).1.status
      = JobStatus.failed) ∧
    ((executeJobPure "b" (newJob "jw" wf4 0) kfFailOut 2).1.workflowJson.spec.shots
      = (newJob "jw" wf4 0).workflowJson.spec.shots) ∧
    ((executeJobPure "b" (newJob "jw" wf4 0) kfFailOut 2).1.workflowJson.progress
      = (newJob "jw" wf4 0).workflowJson.progress) ∧
    ((executeJobPure "b" (newJob "jw" wf4 0) kfFailOut 2).2.all isImagenCall
      = true) :=
  c5_keyframe_failure_stops_pipeline_but_progress_stays_pending "b"
    (newJob "jw" wf4 0) kfFailOut 2 ⟨1, by decide, by decide⟩

end CreativeStudio

namespace CreativeStudio

/-- C6 counterexample: with K=2, resubmitting id "A" while its first task
is executing makes the worker's `_running_tasks` dict overwrite the first
task's entry; when that task finishes its `finally` block deletes the
shared key, so the capacity check undercounts and two further jobs are
started — three jobs are Running at once. -/
theorem c6_counterexample :
    (countRunning (run (initState 2)
      [.submit "A" wf0, .workerLoop, .beginTask 0, .submit "A" wf0,
       .workerLoop, .beginTask 1, .stageRun 0 allKfFailOut,
       .submit "B" wf0, .submit "C" wf0, .workerLoop, .workerLoop,
       .beginTask 2, .beginTask 3]) = 3) ∧
    ¬ (countRunning (run (initState 2)
      [.submit "A" wf0, .workerLoop, .beginTask 0, .submit "A" wf0,
       .workerLoop, .beginTask 1, .stageRun 0 allKfFailOut,
       .submit "B" wf0, .submit "C" wf0, .workerLoop, .workerLoop,
       .beginTask 2, .beginTask 3]) ≤ 2) := by
  decide

/-- C6 (amended): the concurrency bound `Running jobs ≤ K` holds for every
trace whose submissions use pairwise-distinct job ids; it can be broken by
resubmitting an id already in flight. -/
theorem c6_running_bound_under_distinct_ids
    (k : Nat) (es : List Event) (h : (submitIds es).Nodup) :
    countRunning (run (initState k) es) ≤ k := by
  have hinv := inv_run k es h
  have hmax := maxConcurrent_run k es
  have h1 := hinv.countBound
  have h2 := hinv.capBound
  rw [hmax] at h2
  unfold countRunning
  omega

/-- C6 witness: the bound at K=1 on a one-submission trace. -/
theorem c6_witness :
    countRunning (run (initState 1) [.submit "a" wf0]) ≤ 1 :=
  c6_running_bound_under_distinct_ids 1 [.submit "a" wf0] (by decide)

/-- C7 counterexample: two submissions at clock 0 and 1 list in creation
order [0, 1] — ascending (oldest first), not descending as claimed. -/
theorem c7_counterexample :
    (((listJobs (run (initState 3) [.submit "a" wf0, .submit "b" wf0]) none).map
      Job.createdAt) = [0, 1]) ∧
    ¬ (((listJobs (run (initState 3) [.submit "a" wf0, .submit "b" wf0]) none).map
      Job.createdAt).Sorted (fun a b => b ≤ a)) := by
  decide

/-- C7 (amended): when all submitted job ids are pairwise distinct,
unfiltered List returns jobs in ascending creation-time order (CPython
dict insertion order), oldest first. Resubmitting an existing id breaks
the ascending order: the replaced record keeps its original dict position
but carries a later creation time. -/
theorem c7_list_jobs_ascending_by_creation :
    (∀ (k : Nat) (es : List Event), (submitIds es).Nodup →
      ((listJobs (run (initState k) es) none).map Job.createdAt).Sorted
        (fun a b => a ≤ b)) ∧
    (((listJobs (run (initState 3)
        [.submit "a" wf0, .submit "b" wf0, .submit "a" wf0]) none).map
      Job.createdAt) = [2, 1]) := by
  constructor
  · intro k es h
    have hc := chrono_run k es h
    rw [listJobs_map_createdAt]
    exact hc.1
  · decide

/-- C7 witness: the ascending order on the two-submission trace. -/
theorem c7_witness :
    ((listJobs (run (initState 3) [.submit "a" wf0, .submit "b" wf0]) none).map
      Job.createdAt).Sorted (fun a b => a ≤ b) :=
  c7_list_jobs_ascending_by_creation.1 3 [.submit "a" wf0, .submit "b" wf0]
    (by decide)

/-- C8 counterexample: after the keyframes stage (1 of 5) completes, the
per-stage dict says "complete" but the job's overall `progress` is still
0, not 1/5 — `_execute_job` only ever writes `progress = 1.0` at the end. -/
theorem c8_counterexample :
    ((getJob (run (initState 1)
      [.submit "j" wf0, .workerLoop, .beginTask 0, .stageRun 0 okOut]) "j").map
      (fun j => dictGet j.workflowJson.progress "keyframes")
      = some (some "complete")) ∧
    ((getJob (run (initState 1)
      [.submit "j" wf0, .workerLoop, .beginTask 0, .stageRun 0 okOut]) "j").map
      Job.progress = some 0) ∧
    ¬ ((getJob (run (initState 1)
      [.submit "j" wf0, .workerLoop, .beginTask 0, .stageRun 0 okOut]) "j").map
      Job.progress = some (1/5)) := by
  refine ⟨by decide, by decide, ?_⟩
  intro hcon
  have h2 : ((getJob (run (initState 1)
      [.submit "j" wf0, .workerLoop, .beginTask 0, .stageRun 0 okOut]) "j").map
      Job.progress = some 0) := by decide
  rw [h2] at hcon
  have h3 : (0 : ℚ) = 1/5 := Option.some.inj hcon
  norm_num at h3

/-- C8 (amended): a job's overall `progress` never takes an intermediate
value — on every reachable state it is exactly 0 or exactly 1. -/
theorem c8_progress_is_zero_or_one
    (k : Nat) (es : List Event) (j : Job)
    (h : j ∈ (run (initState k) es).heap) :
    j.progress = 0 ∨ j.progress = 1 :=
  progress_run k es j h

/-- C8 witness: the freshly submitted job on a one-event trace. -/
theorem c8_witness :
    (newJob "j" wf0 0).progress = 0 ∨ (newJob "j" wf0 0).progress = 1 :=
  c8_progress_is_zero_or_one 1 [.submit "j" wf0] (newJob "j" wf0 0)
    (by decide)

end CreativeStudio

namespace CreativeStudio

/-- C9 counterexample: submitting a completely empty spec is accepted —
the Job is created, registered and enqueued, with no validation error. -/
theorem c9_counterexample :
    (getJob (submitJob (initState 1) "j" emptyWf).1 "j"
      = some (newJob "j" emptyWf 0)) ∧
    ((submitJob (initState 1) "j" emptyWf).1.fifo = ["j"]) := by
  decide

/-- C9 (amended): `submit_job` performs no validation at all — for every
state and every workflow payload, malformed or not, it creates a Queued
job, registers it under its id, appends the id to the queue and returns
the id; nothing about the spec's content is inspected and nothing is ever
rejected. -/
theorem c9_submit_never_validates
    (s : QState) (id : String) (wf : Workflow) :
    (getJob (submitJob s id wf).1 id = some (newJob id wf s.now)) ∧
    ((submitJob s id wf).1.fifo = s.fifo ++ [id]) ∧
    ((submitJob s id wf).2 = id) ∧
    ((newJob id wf s.now).status = JobStatus.queued) := by
  refine ⟨?_, rfl, rfl, rfl⟩
  unfold getJob submitJob
  dsimp only
  rw [dictGet_set_self]
  exact List.getElem?_concat_length s.heap (newJob id wf s.now)

/-- C10: resubmitting an existing id replaces the registry record — Get
thereafter returns the fresh Queued job built from the new payload, the old
record being unreachable — and appends the id to the FIFO again, so the
duplicate dispatch creates a second execution task for the same id. -/
theorem c10_resubmit_replaces_record_and_double_enqueues :
    (∀ (s : QState) (id : String) (wf : Workflow) (j : Job),
      getJob s id = some j →
      getJob (submitJob s id wf).1 id = some (newJob id wf s.now) ∧
      (submitJob s id wf).1.fifo = s.fifo ++ [id]) ∧
    ((run (initState 2)
      [.submit "A" wf0, .submit "A" wf0, .workerLoop, .workerLoop]).tasks.length
      = 2) := by
  constructor
  · intro s id wf j hj
    refine ⟨?_, rfl⟩
    unfold getJob submitJob
    dsimp only
    rw [dictGet_set_self]
    exact List.getElem?_concat_length s.heap (newJob id wf s.now)
  · decide

/-- C10 witness: resubmitting over the completed job `jTerm` yields the
fresh Queued record and a second FIFO entry. -/
theorem c10_witness :
    (getJob (submitJob sTerm "j" wf0).1 "j" = some (newJob "j" wf0 sTerm.now)) ∧
    ((submitJob sTerm "j" wf0).1.fifo = sTerm.fifo ++ ["j"]) :=
  c10_resubmit_replaces_record_and_double_enqueues.1 sTerm "j" wf0 jTerm
    (by decide)

end CreativeStudio
